import Mathlib

/-!
Shallow embedding of `src/qalib/qabase/threading.py` (class `Parallel`).

The Python class runs a list of callables on a bounded pool of worker
threads.  We embed it as a small-step interleaving machine: every atomic
action of a worker thread (`Parallel._wrapped`, lines 67-92) or of the
caller thread (`Parallel.run_threads`, lines 94-158) is one transition,
and a schedule is an explicit list of scheduler choices, so theorems
quantifying over schedules cover all interleavings of the threads.

Modelling conventions:
* A Python exception is a `Failure` (kind, message, originating-trace
  identity); `sys.exc_info()` capture and the `raise exc[0], exc[1],
  exc[2]` re-raise preserve the `Failure` value unchanged.
* `Queue.Queue` is a FIFO `List` plus the `unfinished_tasks` counter
  (incremented by `put`, decremented by `task_done`); `get(block=False)`
  takes the head or fails on the empty list.
* `izip_longest(..., fillvalue={})` pads every list to the longest
  length with a `fillDict` marker standing for the Python `{}` fill;
  calling the `{}` fill raises a TypeError, `f(*{})` passes no
  positional arguments, and `f(**{})` passes no keyword arguments,
  which is what `unpackArgs`/`unpackKwargs` encode.
* `time.time()` values are supplied by the scheduler with each caller
  step; `thread.join(self.timeout)` has no observable effect on the
  shared state beyond the flag already set, so the model records that
  the join loop ran (the per-thread bound is not represented).
* Thread renaming (lines 60-65, 79-85) and the debug log at line 75
  affect no claim and are not represented; the exception log (line 88)
  and the progress log (line 142) are modelled in the `log` field.
-/

namespace Qalib

/-- A Python value passed as a positional or keyword argument. -/
inductive Val where
  | int (i : Int)
  | str (s : String)
deriving DecidableEq, Repr

/-- A captured exception: its kind (class), message and an identifier of
its originating traceback, exactly the triple `sys.exc_info()` captures
at line 90 of `threading.py`. -/
structure Failure where
  kind : String
  msg : String
  trace : Nat
deriving DecidableEq, Repr

/-- A task callable: receives the unpacked positional arguments and the
unpacked keyword arguments, and either returns or raises a `Failure`. -/
def PyFunc : Type := List Val → List (String × Val) → Except Failure Unit

/-- An entry of the `funcs` list after `izip_longest` padding: either a
real callable, or the `{}` fill value (which is not callable). -/
inductive FuncEntry where
  | fn (f : PyFunc)
  | fillDict

/-- An entry of the `args_list` after padding: a tuple of arguments, a
bare string (the misuse flagged at lines 104-106), or the `{}` fill. -/
inductive ArgsEntry where
  | tup (xs : List Val)
  | strEntry (s : String)
  | fillDict
deriving DecidableEq, Repr

/-- An entry of the `kwargs_list` after padding: a dict, or the `{}`
fill (itself an empty dict). -/
inductive KwEntry where
  | dict (d : List (String × Val))
  | fillDict
deriving DecidableEq, Repr

/-- Python unpacking `func(*args, ...)`: a tuple passes its elements, a
string passes its one-character substrings, and the `{}` fill passes
nothing (iterating an empty dict yields no keys). -/
def unpackArgs : ArgsEntry → List Val
  | .tup xs => xs
  | .strEntry s => s.data.map (fun c => Val.str (String.mk [c]))
  | .fillDict => []

/-- Python unpacking `func(..., **kwargs)`. -/
def unpackKwargs : KwEntry → List (String × Val)
  | .dict d => d
  | .fillDict => []

/-- The TypeError Python raises when the `{}` padding value produced by
`izip_longest` at lines 100-102 is called as a function at line 83. -/
def dict_call_failure : Failure :=
  { kind := "TypeError", msg := "dict object is not callable", trace := 0 }

/-- One triple placed on the task queue by `self.queue.put((func, args,
kwargs))` at line 107, tagged with its position in the built task list. -/
structure Triple where
  tid : Nat
  func : FuncEntry
  args : ArgsEntry
  kwargs : KwEntry

/-- The outcome of `func(*args, **kwargs)` (line 83) for one triple. -/
def callOutcome (t : Triple) : Except Failure Unit :=
  match t.func with
  | .fn f => f (unpackArgs t.args) (unpackKwargs t.kwargs)
  | .fillDict => Except.error dict_call_failure

/-- `itertools.izip_longest(funcs, args_list, kwargs_list, fillvalue={})`
(lines 100-102): positional pairing up to the longest of the three
lists, missing trailing entries filled with `{}`. -/
def izip_longest3 (fs : List FuncEntry) (al : List ArgsEntry) (kl : List KwEntry) :
    List (FuncEntry × ArgsEntry × KwEntry) :=
  (List.range (max fs.length (max al.length kl.length))).map
    (fun i => (fs.getD i .fillDict, al.getD i .fillDict, kl.getD i .fillDict))

/-- The message of the ValueError raised at lines 104-106. -/
def strCheckMsg : String := "args_list must be list of lists not list of strings"

/-- The enqueue loop of `run_threads` (lines 100-107): walk the zipped
triples in order, raising the ValueError of lines 104-106 at the first
bare-string `args` entry, otherwise numbering and enqueueing each
triple. -/
def enqueueTriples : Nat → List (FuncEntry × ArgsEntry × KwEntry) → Except String (List Triple)
  | _, [] => Except.ok []
  | i, (f, a, k) :: rest =>
    match a with
    | .strEntry _ => Except.error strCheckMsg
    | .tup xs =>
      match enqueueTriples (i + 1) rest with
      | Except.error m => Except.error m
      | Except.ok ts => Except.ok (⟨i, f, .tup xs, k⟩ :: ts)
    | .fillDict =>
      match enqueueTriples (i + 1) rest with
      | Except.error m => Except.error m
      | Except.ok ts => Except.ok (⟨i, f, .fillDict, k⟩ :: ts)

/-- The configuration state built by `Parallel.__init__` (lines 28-58). -/
structure Parallel where
  funcs : List FuncEntry
  args_list : List ArgsEntry
  kwargs_list : List KwEntry
  max_workers : Nat
  timeout : Nat
  run_over_exceptions : Bool
  output_interval : Option Nat

/-- `Parallel.__init__`: optional lists default to `[]` (lines 49-50)
and the effective `run_over_exceptions` is the conjunction
`run_over_exceptions and i_know_what_im_doing` (line 57). -/
def Parallel.init (funcs : List FuncEntry) (args_list : Option (List ArgsEntry))
    (kwargs_list : Option (List KwEntry)) (max_workers : Nat) (timeout : Nat)
    (run_over_exceptions : Bool) (i_know_what_im_doing : Bool)
    (output_interval : Option Nat) : Parallel :=
  { funcs := funcs
    args_list := args_list.getD []
    kwargs_list := kwargs_list.getD []
    max_workers := max_workers
    timeout := timeout
    run_over_exceptions := run_over_exceptions && i_know_what_im_doing
    output_interval := output_interval }

/-- The enqueue phase of `run_threads` on a `Parallel` object. -/
def buildQueueOf (p : Parallel) : Except String (List Triple) :=
  enqueueTriples 0 (izip_longest3 p.funcs p.args_list p.kwargs_list)

/-- Program counter of one worker thread running `Parallel._wrapped`
(lines 67-92). -/
inductive WState where
  | checkFlag
  | tryGet
  | exec (t : Triple)
  | taskDone
  | exited

/-- An error propagating out of the supervisor loop towards the
`finally` block. -/
inductive RunErr where
  | shapeError
  | taskFailure (f : Failure)
deriving DecidableEq, Repr

/-- What the blocking `run_threads` call does on a given schedule. -/
inductive RunOutcome where
  | normal
  | stringValueError (msg : String)
  | shapeError
  | taskFailure (f : Failure)
  | incomplete
deriving DecidableEq, Repr

/-- A record written to `self.logger`: the `logger.exception` call at
line 88 or the `logger.info` progress message of lines 136-142 (which
the source renders through the external human-readable-time formatter;
per the spec that formatter is out of scope, so the model keeps the
three quantities of the message). -/
inductive LogEntry where
  | taskException (f : Failure)
  | progressMsg (elapsed : Nat) (pending : Nat) (total : Nat)
deriving DecidableEq, Repr

/-- Program counter of the caller thread inside `run_threads` after the
enqueue phase: the shape check of lines 115-121, the supervisor loop of
lines 125-144, and the `finally` block of lines 148-158. -/
inductive MState where
  | shapeCheck
  | loopCheck
  | excCheck
  | progressStep
  | finalize (propagating : Option RunErr)
  | finished (result : RunOutcome) (joined : Bool)
deriving DecidableEq, Repr

/-- The shared state of one `run_threads` call.  `executed`, `calls`,
`produced`, `observed` and `pulls` are observation histories: which
tasks were attempted (in attempt order), with which unpacked arguments,
which failures the workers captured, which failure records the caller
dequeued, and how many queue pulls happened. -/
structure PoolState where
  queue : List Triple
  unfinished_tasks : Nat
  exceptions : List Failure
  keep_running : Bool
  workers : List WState
  main : MState
  start_time : Nat
  last_output_time : Nat
  log : List LogEntry
  executed : List Nat
  calls : List (Nat × List Val × List (String × Val))
  produced : List Failure
  observed : List Failure
  pulls : Nat

/-- One atomic action of worker `i` running `Parallel._wrapped`:
check `self.keep_running` (line 70), `queue.get(block=False)` (line 72,
breaking on `Queue.Empty` at line 74), run `func(*args, **kwargs)` with
the except-clause of lines 86-90, or `queue.task_done()` (line 92). -/
def workerStep (p : Parallel) (s : PoolState) (i : Nat) : Option PoolState :=
  match s.workers.get? i with
  | none => none
  | some .exited => none
  | some .checkFlag =>
    some { s with workers := s.workers.set i (if s.keep_running then .tryGet else .exited) }
  | some .tryGet =>
    match s.queue with
    | [] => some { s with workers := s.workers.set i .exited }
    | t :: rest =>
      some { s with queue := rest, workers := s.workers.set i (.exec t),
                    pulls := s.pulls + 1 }
  | some (.exec t) =>
    match callOutcome t with
    | Except.ok _ =>
      some { s with workers := s.workers.set i .taskDone,
                    executed := s.executed ++ [t.tid],
                    calls := s.calls ++ [(t.tid, unpackArgs t.args, unpackKwargs t.kwargs)] }
    | Except.error f =>
      some { s with workers := s.workers.set i .taskDone,
                    executed := s.executed ++ [t.tid],
                    calls := s.calls ++ [(t.tid, unpackArgs t.args, unpackKwargs t.kwargs)],
                    keep_running := p.run_over_exceptions,
                    log := s.log ++ [.taskException f],
                    exceptions := s.exceptions ++ [f],
                    produced := s.produced ++ [f] }
  | some .taskDone =>
    some { s with unfinished_tasks := s.unfinished_tasks - 1,
                  workers := s.workers.set i .checkFlag }

/-- The outcome `run_threads` has when the `finally` block finds no
further failure record: whatever error was already propagating out of
the try-block (or a normal return). -/
def propOutcome : Option RunErr → RunOutcome
  | none => .normal
  | some .shapeError => .shapeError
  | some (.taskFailure f) => .taskFailure f

/-- One atomic action of the caller thread, at the current clock value
`now`: the shape check (lines 115-121), the loop condition (line 125),
the non-blocking exception check with re-raise (lines 128-133), the
progress report (lines 134-144), or the `finally` block (lines
148-158), whose further-record re-raise replaces any propagating
error. -/
def mainStep (p : Parallel) (s : PoolState) (now : Nat) : Option PoolState :=
  match s.main with
  | .shapeCheck =>
    if p.funcs.length < p.args_list.length ∨ p.funcs.length < p.kwargs_list.length then
      some { s with main := .finalize (some .shapeError) }
    else
      some { s with main := .loopCheck, start_time := now, last_output_time := now }
  | .loopCheck =>
    if s.unfinished_tasks ≠ 0 then some { s with main := .excCheck }
    else some { s with main := .finalize none }
  | .excCheck =>
    match s.exceptions with
    | f :: rest =>
      some { s with exceptions := rest, keep_running := p.run_over_exceptions,
                    observed := s.observed ++ [f],
                    main := .finalize (some (.taskFailure f)) }
    | [] => some { s with main := .progressStep }
  | .progressStep =>
    match p.output_interval with
    | some interval =>
      if now - s.last_output_time > interval then
        some { s with log := s.log ++ [.progressMsg (now - s.start_time) s.queue.length p.funcs.length],
                      last_output_time := now, main := .loopCheck }
      else some { s with main := .loopCheck }
    | none => some { s with main := .loopCheck }
  | .finalize propagating =>
    match s.exceptions with
    | f :: rest =>
      some { s with exceptions := rest, keep_running := p.run_over_exceptions,
                    observed := s.observed ++ [f],
                    main := .finished (.taskFailure f) true }
    | [] => some { s with main := .finished (propOutcome propagating) false }
  | .finished _ _ => none

/-- A scheduler choice: run one step of worker `i`, or one step of the
caller thread with `time.time()` currently reading `now`. -/
inductive Choice where
  | worker (i : Nat)
  | main (now : Nat)
deriving DecidableEq, Repr

/-- The transition function of the pool. -/
def step (p : Parallel) (s : PoolState) : Choice → Option PoolState
  | .worker i => workerStep p s i
  | .main now => mainStep p s now

/-- Run a schedule; choices whose thread cannot move are skipped. -/
def runSched (p : Parallel) : PoolState → List Choice → PoolState
  | s, [] => s
  | s, c :: cs =>
    match step p s c with
    | some s' => runSched p s' cs
    | none => runSched p s cs

/-- Reachability under arbitrary interleaving. -/
inductive Reach (p : Parallel) : PoolState → PoolState → Prop
  | refl (s : PoolState) : Reach p s s
  | tail {s₁ s₂ s₃ : PoolState} (h : Reach p s₁ s₂) (c : Choice)
      (h2 : step p s₂ c = some s₃) : Reach p s₁ s₃

/-- The state of `run_threads` right after the enqueue loop succeeded
and the `max_workers` threads were started (lines 109-113), with the
caller thread about to perform the shape check of lines 115-121. -/
def initState (p : Parallel) (ts : List Triple) : PoolState :=
  { queue := ts
    unfinished_tasks := ts.length
    exceptions := []
    keep_running := true
    workers := List.replicate p.max_workers .checkFlag
    main := .shapeCheck
    start_time := 0
    last_output_time := 0
    log := []
    executed := []
    calls := []
    produced := []
    observed := []
    pulls := 0 }

/-- A state reachable in some run of `run_threads` on `p`. -/
def ReachState (p : Parallel) (s : PoolState) : Prop :=
  ∃ ts, buildQueueOf p = Except.ok ts ∧ Reach p (initState p ts) s

/-- What `run_threads` raised (or `.incomplete` if the caller thread
has not finished under the given schedule). -/
def resultOf (s : PoolState) : RunOutcome :=
  match s.main with
  | .finished r _ => r
  | _ => .incomplete

/-- Whether the `finally` block executed its join loop (line 154-155). -/
def joinedOf (s : PoolState) : Bool :=
  match s.main with
  | .finished _ j => j
  | _ => false

/-- Observable summary of one `run_threads` call. -/
structure RunResult where
  outcome : RunOutcome
  workersStarted : Nat
  executed : List Nat
  joined : Bool
  log : List LogEntry

/-- `Parallel.run_threads` on a given schedule: the enqueue loop either
raises the bare-string ValueError before any thread is started (lines
100-107), or the machine runs from `initState`. -/
def run_threads (p : Parallel) (sched : List Choice) : RunResult :=
  match buildQueueOf p with
  | Except.error msg => ⟨.stringValueError msg, 0, [], false, []⟩
  | Except.ok ts =>
    let s := runSched p (initState p ts) sched
    ⟨resultOf s, p.max_workers, s.executed, joinedOf s, s.log⟩

/-! ## List helper lemmas -/

theorem get?_set_self {α : Type _} (l : List α) (i : Nat) (v w : α)
    (h : l.get? i = some w) : (l.set i v).get? i = some v := by
  induction l generalizing i with
  | nil => simp at h
  | cons a tl ih =>
    cases i with
    | zero => simp
    | succ n => simpa using ih n (by simpa using h)

theorem set_same {α : Type _} (l : List α) (i : Nat) (v : α)
    (h : l.get? i = some v) : l.set i v = l := by
  induction l generalizing i with
  | nil => simp at h
  | cons a tl ih =>
    cases i with
    | zero => simp at h; simp [h]
    | succ n => simpa using ih n (by simpa using h)

theorem countP_set_some {α : Type _} (q : α → Bool) (l : List α) (i : Nat) (w v : α)
    (h : l.get? i = some w) :
    (l.set i v).countP q + (if q w then 1 else 0) = l.countP q + (if q v then 1 else 0) := by
  induction l generalizing i with
  | nil => simp at h
  | cons a tl ih =>
    cases i with
    | zero =>
      simp at h
      subst h
      simp [List.countP_cons]
      omega
    | succ n =>
      have := ih n (by simpa using h)
      simp [List.countP_cons]
      omega

theorem flatMap_set_perm {α β : Type _} (g : α → List β) (l : List α) (i : Nat) (w v : α)
    (h : l.get? i = some w) :
    ((l.set i v).flatMap g ++ g w).Perm (l.flatMap g ++ g v) := by
  induction l generalizing i with
  | nil => simp at h
  | cons a tl ih =>
    cases i with
    | zero =>
      simp at h
      subst h
      rw [← Multiset.coe_eq_coe]
      simp only [List.set_cons_zero, List.flatMap_cons, ← Multiset.coe_add]
      abel
    | succ n =>
      have hi := ih n (by simpa using h)
      simp only [List.set_cons_succ, List.flatMap_cons, List.append_assoc]
      exact hi.append_left (g a)

theorem drop_cons_succ {α : Type _} (l : List α) (n : Nat) (a : α) (r : List α)
    (h : l.drop n = a :: r) : l.drop (n + 1) = r := by
  have := List.tail_drop l n
  rw [h] at this
  simpa using this.symm

theorem get?_of_drop_cons {α : Type _} {l : List α} {n : Nat} {a : α} {r : List α}
    (h : l.drop n = a :: r) : l.get? n = some a := by
  induction l generalizing n with
  | nil => simp at h
  | cons x tl ih =>
    cases n with
    | zero => simp at h; simp [h.1]
    | succ m => simpa using ih (by simpa using h)

theorem take_succ_of_drop_cons {α : Type _} {l : List α} {n : Nat} {a : α} {r : List α}
    (h : l.drop n = a :: r) : l.take (n + 1) = l.take n ++ [a] := by
  have h1 : l.get? n = some a := get?_of_drop_cons h
  have := List.take_succ (l := l) (n := n)
  rw [List.get?_eq_getElem? l n] at h1
  rw [this, h1]
  rfl

theorem get?_append_len {α : Type _} (l₁ : List α) (b : α) (l₂ : List α) :
    (l₁ ++ b :: l₂).get? l₁.length = some b := by
  induction l₁ with
  | nil => rfl
  | cons a tl ih => simpa using ih

theorem set_append_len {α : Type _} (l₁ : List α) (b v : α) (l₂ : List α) :
    (l₁ ++ b :: l₂).set l₁.length v = l₁ ++ v :: l₂ := by
  induction l₁ with
  | nil => rfl
  | cons a tl ih => simp [ih]

theorem length_pos_of_get? {α : Type _} {l : List α} {i : Nat} {w : α}
    (h : l.get? i = some w) : i < l.length := by
  by_contra hc
  rw [List.get?_eq_none.mpr (by omega)] at h
  exact Option.noConfusion h

/-! ## Machine observations -/

/-- The task id a worker in a given state is holding (pulled from the
queue, not yet handed to `task_done`). -/
def optTid : WState → List Nat
  | .exec t => [t.tid]
  | _ => []

/-- All task ids currently held by workers. -/
def heldTids (ws : List WState) : List Nat := ws.flatMap optTid

/-- A worker that has pulled a task whose `task_done` has not run yet:
it contributes to `Queue.unfinished_tasks`. -/
def isBusy : WState → Bool
  | .exec _ => true
  | .taskDone => true
  | _ => false

def busyCount (ws : List WState) : Nat := ws.countP isBusy

def isTryGet : WState → Bool
  | .tryGet => true
  | _ => false

/-- Workers past the `keep_running` check but before `queue.get`: each
can pull at most one further task after the flag has been cleared. -/
def tryGetCount (ws : List WState) : Nat := ws.countP isTryGet

/-- The failures recorded by `logger.exception` calls, in order. -/
def loggedFailures (lg : List LogEntry) : List Failure :=
  lg.filterMap (fun e => match e with | .taskException f => some f | _ => none)

/-- `f` is exactly the exception some queued task raises when called:
same kind, same message, same originating trace. -/
def IsBodyFailure (ts : List Triple) (f : Failure) : Prop :=
  ∃ t, t ∈ ts ∧ callOutcome t = Except.error f

/-! ## Inversion of the transition function -/

theorem workerStep_inv {p : Parallel} {s s' : PoolState} {i : Nat}
    (h : workerStep p s i = some s') :
    (s.workers.get? i = some .checkFlag ∧
      s' = { s with workers := s.workers.set i (if s.keep_running then .tryGet else .exited) }) ∨
    (s.workers.get? i = some .tryGet ∧ s.queue = [] ∧
      s' = { s with workers := s.workers.set i .exited }) ∨
    (∃ t rest, s.workers.get? i = some .tryGet ∧ s.queue = t :: rest ∧
      s' = { s with queue := rest, workers := s.workers.set i (.exec t),
                    pulls := s.pulls + 1 }) ∨
    (∃ t, s.workers.get? i = some (.exec t) ∧ callOutcome t = Except.ok () ∧
      s' = { s with workers := s.workers.set i .taskDone,
                    executed := s.executed ++ [t.tid],
                    calls := s.calls ++ [(t.tid, unpackArgs t.args, unpackKwargs t.kwargs)] }) ∨
    (∃ t f, s.workers.get? i = some (.exec t) ∧ callOutcome t = Except.error f ∧
      s' = { s with workers := s.workers.set i .taskDone,
                    executed := s.executed ++ [t.tid],
                    calls := s.calls ++ [(t.tid, unpackArgs t.args, unpackKwargs t.kwargs)],
                    keep_running := p.run_over_exceptions,
                    log := s.log ++ [.taskException f],
                    exceptions := s.exceptions ++ [f],
                    produced := s.produced ++ [f] }) ∨
    (s.workers.get? i = some .taskDone ∧
      s' = { s with unfinished_tasks := s.unfinished_tasks - 1,
                    workers := s.workers.set i .checkFlag }) := by
  unfold workerStep at h
  split at h
  · exact absurd h (by simp)
  · exact absurd h (by simp)
  · rename_i heq
    injection h with h
    exact Or.inl ⟨heq, h.symm⟩
  · rename_i heq
    split at h
    · rename_i hq
      injection h with h
      exact Or.inr (Or.inl ⟨heq, hq, h.symm⟩)
    · rename_i t rest hq
      injection h with h
      exact Or.inr (Or.inr (Or.inl ⟨t, rest, heq, hq, h.symm⟩))
  · rename_i t heq
    split at h
    · rename_i u hc
      cases u
      injection h with h
      exact Or.inr (Or.inr (Or.inr (Or.inl ⟨t, heq, hc, h.symm⟩)))
    · rename_i f hc
      injection h with h
      exact Or.inr (Or.inr (Or.inr (Or.inr (Or.inl ⟨t, f, heq, hc, h.symm⟩))))
  · rename_i heq
    injection h with h
    exact Or.inr (Or.inr (Or.inr (Or.inr (Or.inr ⟨heq, h.symm⟩))))

theorem mainStep_inv {p : Parallel} {s s' : PoolState} {now : Nat}
    (h : mainStep p s now = some s') :
    (s.main = .shapeCheck ∧
      (p.funcs.length < p.args_list.length ∨ p.funcs.length < p.kwargs_list.length) ∧
      s' = { s with main := .finalize (some .shapeError) }) ∨
    (s.main = .shapeCheck ∧
      ¬(p.funcs.length < p.args_list.length ∨ p.funcs.length < p.kwargs_list.length) ∧
      s' = { s with main := .loopCheck, start_time := now, last_output_time := now }) ∨
    (s.main = .loopCheck ∧ s.unfinished_tasks ≠ 0 ∧ s' = { s with main := .excCheck }) ∨
    (s.main = .loopCheck ∧ s.unfinished_tasks = 0 ∧ s' = { s with main := .finalize none }) ∨
    (∃ f rest, s.main = .excCheck ∧ s.exceptions = f :: rest ∧
      s' = { s with exceptions := rest, keep_running := p.run_over_exceptions,
                    observed := s.observed ++ [f],
                    main := .finalize (some (.taskFailure f)) }) ∨
    (s.main = .excCheck ∧ s.exceptions = [] ∧ s' = { s with main := .progressStep }) ∨
    (∃ interval, s.main = .progressStep ∧ p.output_interval = some interval ∧
      now - s.last_output_time > interval ∧
      s' = { s with log := s.log ++ [.progressMsg (now - s.start_time) s.queue.length p.funcs.length],
                    last_output_time := now, main := .loopCheck }) ∨
    (∃ interval, s.main = .progressStep ∧ p.output_interval = some interval ∧
      ¬(now - s.last_output_time > interval) ∧ s' = { s with main := .loopCheck }) ∨
    (s.main = .progressStep ∧ p.output_interval = none ∧ s' = { s with main := .loopCheck }) ∨
    (∃ propagating f rest, s.main = .finalize propagating ∧ s.exceptions = f :: rest ∧
      s' = { s with exceptions := rest, keep_running := p.run_over_exceptions,
                    observed := s.observed ++ [f],
                    main := .finished (.taskFailure f) true }) ∨
    (∃ propagating, s.main = .finalize propagating ∧ s.exceptions = [] ∧
      s' = { s with main := .finished (propOutcome propagating) false }) := by
  unfold mainStep at h
  split at h
  · rename_i hm
    split at h
    · rename_i hlen
      injection h with h
      exact Or.inl ⟨hm, hlen, h.symm⟩
    · rename_i hlen
      injection h with h
      exact Or.inr (Or.inl ⟨hm, hlen, h.symm⟩)
  · rename_i hm
    split at h
    · rename_i hu
      injection h with h
      exact Or.inr (Or.inr (Or.inl ⟨hm, hu, h.symm⟩))
    · rename_i hu
      injection h with h
      refine Or.inr (Or.inr (Or.inr (Or.inl ⟨hm, ?_, h.symm⟩)))
      simpa using hu
  · rename_i hm
    split at h
    · rename_i f rest he
      injection h with h
      exact Or.inr (Or.inr (Or.inr (Or.inr (Or.inl ⟨f, rest, hm, he, h.symm⟩))))
    · rename_i he
      injection h with h
      exact Or.inr (Or.inr (Or.inr (Or.inr (Or.inr (Or.inl ⟨hm, he, h.symm⟩)))))
  · rename_i hm
    split at h
    · rename_i interval hoi
      split at h
      · rename_i hgt
        injection h with h
        exact Or.inr (Or.inr (Or.inr (Or.inr (Or.inr (Or.inr (Or.inl
          ⟨interval, hm, hoi, hgt, h.symm⟩))))))
      · rename_i hgt
        injection h with h
        exact Or.inr (Or.inr (Or.inr (Or.inr (Or.inr (Or.inr (Or.inr (Or.inl
          ⟨interval, hm, hoi, hgt, h.symm⟩)))))))
    · rename_i hoi
      injection h with h
      exact Or.inr (Or.inr (Or.inr (Or.inr (Or.inr (Or.inr (Or.inr (Or.inr (Or.inl
        ⟨hm, hoi, h.symm⟩))))))))
  · rename_i propagating hm
    split at h
    · rename_i f rest he
      injection h with h
      exact Or.inr (Or.inr (Or.inr (Or.inr (Or.inr (Or.inr (Or.inr (Or.inr (Or.inr (Or.inl
        ⟨propagating, f, rest, hm, he, h.symm⟩)))))))))
    · rename_i he
      injection h with h
      exact Or.inr (Or.inr (Or.inr (Or.inr (Or.inr (Or.inr (Or.inr (Or.inr (Or.inr (Or.inr
        ⟨propagating, hm, he, h.symm⟩)))))))))
  · exact absurd h (by simp)

/-! ## Small machine lemmas -/

theorem heldTids_set_perm {ws : List WState} {i : Nat} {w v : WState}
    (h : ws.get? i = some w) :
    (heldTids (ws.set i v) ++ optTid w).Perm (heldTids ws ++ optTid v) :=
  flatMap_set_perm optTid ws i w v h

theorem busyCount_set {ws : List WState} {i : Nat} {w v : WState} (h : ws.get? i = some w) :
    busyCount (ws.set i v) + (if isBusy w then 1 else 0) =
      busyCount ws + (if isBusy v then 1 else 0) :=
  countP_set_some isBusy ws i w v h

theorem tryGetCount_set {ws : List WState} {i : Nat} {w v : WState} (h : ws.get? i = some w) :
    tryGetCount (ws.set i v) + (if isTryGet w then 1 else 0) =
      tryGetCount ws + (if isTryGet v then 1 else 0) :=
  countP_set_some isTryGet ws i w v h

theorem busyCount_pos {ws : List WState} {i : Nat} {w : WState}
    (h : ws.get? i = some w) (hb : isBusy w = true) : 1 ≤ busyCount ws := by
  have : 0 < ws.countP isBusy := List.countP_pos_iff.mpr ⟨w, List.get?_mem h, hb⟩
  simpa [busyCount] using this

theorem loggedFailures_append (l1 l2 : List LogEntry) :
    loggedFailures (l1 ++ l2) = loggedFailures l1 ++ loggedFailures l2 := by
  simp [loggedFailures, List.filterMap_append]

/-- Invariants preserved by every step, relative to the initially
enqueued task list `ts`. -/
structure Inv (p : Parallel) (ts : List Triple) (s : PoolState) : Prop where
  hq : s.queue = ts.drop s.pulls
  hple : s.pulls ≤ ts.length
  hperm : (s.executed ++ heldTids s.workers).Perm ((ts.take s.pulls).map Triple.tid)
  hunfin : s.unfinished_tasks = s.queue.length + busyCount s.workers
  hwlen : s.workers.length = p.max_workers
  hheld : ∀ t, WState.exec t ∈ s.workers → t ∈ ts
  hexc : ∀ f ∈ s.exceptions, IsBodyFailure ts f
  hobs : ∀ f ∈ s.observed, IsBodyFailure ts f
  hprop : ∀ f, s.main = .finalize (some (.taskFailure f)) → IsBodyFailure ts f
  hres : ∀ f j, s.main = .finished (.taskFailure f) j → IsBodyFailure ts f
  hlogf : loggedFailures s.log = s.produced
  hprodf : ∀ f ∈ s.produced, IsBodyFailure ts f
  hcount : s.produced.length = s.exceptions.length + s.observed.length
  hcalls : ∀ c ∈ s.calls, ∃ t, t ∈ ts ∧ c = (t.tid, unpackArgs t.args, unpackKwargs t.kwargs)

theorem heldTids_replicate_checkFlag (n : Nat) :
    heldTids (List.replicate n .checkFlag) = [] := by
  induction n with
  | zero => rfl
  | succ m ih => simp [heldTids, List.replicate_succ, optTid]

theorem busyCount_replicate_checkFlag (n : Nat) :
    busyCount (List.replicate n .checkFlag) = 0 := by
  induction n with
  | zero => rfl
  | succ m ih => simp [busyCount, List.replicate_succ, isBusy]

theorem heldTids_set_nil {ws : List WState} {i : Nat} {w : WState} (v : WState)
    (h : ws.get? i = some w) (hw : optTid w = []) (hv : optTid v = []) :
    (heldTids (ws.set i v)).Perm (heldTids ws) := by
  have hh := heldTids_set_perm (v := v) h
  rw [hw, hv] at hh
  simpa using hh

theorem busyCount_set_congr {ws : List WState} {i : Nat} {w : WState} (v : WState)
    (h : ws.get? i = some w) (he : isBusy w = isBusy v) :
    busyCount (ws.set i v) = busyCount ws := by
  have hb := busyCount_set (v := v) h
  rw [he] at hb
  omega

theorem hheld_set_of_ne {ts : List Triple} {ws : List WState} {i : Nat} {v : WState}
    (hh : ∀ t, WState.exec t ∈ ws → t ∈ ts) (hv : ∀ t, v ≠ WState.exec t) :
    ∀ t, WState.exec t ∈ ws.set i v → t ∈ ts := by
  intro t ht
  rcases List.mem_or_eq_of_mem_set ht with hmem | heq
  · exact hh t hmem
  · exact absurd heq.symm (hv t)

theorem inv_init (p : Parallel) (ts : List Triple) : Inv p ts (initState p ts) := by
  refine ⟨rfl, by simp [initState], ?_, ?_, by simp [initState], ?_, by simp [initState],
    by simp [initState], ?_, ?_, rfl, by simp [initState], rfl, by simp [initState]⟩
  · simp [initState, heldTids_replicate_checkFlag]
  · simp [initState, busyCount_replicate_checkFlag]
  · intro t ht
    have := List.eq_of_mem_replicate
      (show WState.exec t ∈ List.replicate p.max_workers .checkFlag from ht)
    exact absurd this (by simp)
  · intro f hf
    simp [initState] at hf
  · intro f j hf
    simp [initState] at hf

theorem inv_step {p : Parallel} {ts : List Triple} {s s' : PoolState} {c : Choice}
    (hi : Inv p ts s) (h : step p s c = some s') : Inv p ts s' := by
  obtain ⟨hq, hple, hperm, hunfin, hwlen, hheld, hexc, hobs, hprop, hres, hlogf,
    hprodf, hcount, hcalls⟩ := hi
  cases c with
  | worker i =>
    rcases workerStep_inv h with
      ⟨hw, rfl⟩ | ⟨hw, hqe, rfl⟩ | ⟨t, rest, hw, hqe, rfl⟩ |
      ⟨t, hw, hc, rfl⟩ | ⟨t, f, hw, hc, rfl⟩ | ⟨hw, rfl⟩
    · -- checkFlag moves to tryGet (flag up) or exited (flag down)
      cases hkr : s.keep_running
      · refine ⟨hq, hple, ?_, ?_, ?_, ?_, hexc, hobs, hprop, hres, hlogf, hprodf, hcount, hcalls⟩
        · show (s.executed ++ heldTids (s.workers.set i .exited)).Perm
            ((ts.take s.pulls).map Triple.tid)
          exact ((heldTids_set_nil .exited hw rfl rfl).append_left s.executed).trans hperm
        · show s.unfinished_tasks = s.queue.length + busyCount (s.workers.set i .exited)
          rw [busyCount_set_congr .exited hw rfl]
          exact hunfin
        · show (s.workers.set i .exited).length = p.max_workers
          rw [List.length_set]
          exact hwlen
        · show ∀ t, WState.exec t ∈ s.workers.set i .exited → t ∈ ts
          exact hheld_set_of_ne hheld (by intro t ht; exact WState.noConfusion ht)
      · refine ⟨hq, hple, ?_, ?_, ?_, ?_, hexc, hobs, hprop, hres, hlogf, hprodf, hcount, hcalls⟩
        · show (s.executed ++ heldTids (s.workers.set i .tryGet)).Perm
            ((ts.take s.pulls).map Triple.tid)
          exact ((heldTids_set_nil .tryGet hw rfl rfl).append_left s.executed).trans hperm
        · show s.unfinished_tasks = s.queue.length + busyCount (s.workers.set i .tryGet)
          rw [busyCount_set_congr .tryGet hw rfl]
          exact hunfin
        · show (s.workers.set i .tryGet).length = p.max_workers
          rw [List.length_set]
          exact hwlen
        · show ∀ t, WState.exec t ∈ s.workers.set i .tryGet → t ∈ ts
          exact hheld_set_of_ne hheld (by intro t ht; exact WState.noConfusion ht)
    · -- tryGet sees an empty queue and exits
      refine ⟨hq, hple, ?_, ?_, ?_, ?_, hexc, hobs, hprop, hres, hlogf, hprodf, hcount, hcalls⟩
      · exact ((heldTids_set_nil .exited hw rfl rfl).append_left s.executed).trans hperm
      · show s.unfinished_tasks = s.queue.length + busyCount (s.workers.set i .exited)
        rw [busyCount_set_congr .exited hw rfl]
        exact hunfin
      · show (s.workers.set i .exited).length = p.max_workers
        rw [List.length_set]
        exact hwlen
      · exact hheld_set_of_ne hheld (by intro t ht; exact WState.noConfusion ht)
    · -- tryGet pulls the head of the queue
      have hdrop : ts.drop s.pulls = t :: rest := by rw [← hq, hqe]
      have htm : t ∈ ts := List.get?_mem (get?_of_drop_cons hdrop)
      refine ⟨?_, ?_, ?_, ?_, ?_, ?_, hexc, hobs, hprop, hres, hlogf, hprodf, hcount, hcalls⟩
      · show rest = ts.drop (s.pulls + 1)
        exact (drop_cons_succ ts s.pulls t rest hdrop).symm
      · show s.pulls + 1 ≤ ts.length
        have := length_pos_of_get? (get?_of_drop_cons hdrop)
        omega
      · show (s.executed ++ heldTids (s.workers.set i (.exec t))).Perm
          ((ts.take (s.pulls + 1)).map Triple.tid)
        rw [take_succ_of_drop_cons hdrop, List.map_append]
        have hh := heldTids_set_perm (v := .exec t) hw
        simp only [optTid, List.append_nil] at hh
        refine (hh.append_left s.executed).trans ?_
        rw [← List.append_assoc]
        exact hperm.append_right [t.tid]
      · show s.unfinished_tasks = rest.length + busyCount (s.workers.set i (.exec t))
        have hb := busyCount_set (v := .exec t) hw
        simp [isBusy] at hb
        rw [hunfin, hqe]
        simp only [List.length_cons]
        omega
      · show (s.workers.set i (.exec t)).length = p.max_workers
        rw [List.length_set]
        exact hwlen
      · intro u hu
        rcases List.mem_or_eq_of_mem_set hu with hmem | heq
        · exact hheld u hmem
        · injection heq with heq
          exact heq ▸ htm
    · -- the call returns: the held task becomes executed
      refine ⟨hq, hple, ?_, ?_, ?_, ?_, hexc, hobs, hprop, hres, hlogf, hprodf, hcount, ?_⟩
      · show ((s.executed ++ [t.tid]) ++ heldTids (s.workers.set i .taskDone)).Perm
          ((ts.take s.pulls).map Triple.tid)
        have hh := heldTids_set_perm (v := .taskDone) hw
        simp only [optTid, List.append_nil] at hh
        refine List.Perm.trans ?_ hperm
        rw [← Multiset.coe_eq_coe] at hh ⊢
        simp only [← Multiset.coe_add] at hh ⊢
        rw [← hh]
        abel
      · show s.unfinished_tasks = s.queue.length + busyCount (s.workers.set i .taskDone)
        rw [busyCount_set_congr .taskDone hw rfl]
        exact hunfin
      · show (s.workers.set i .taskDone).length = p.max_workers
        rw [List.length_set]
        exact hwlen
      · exact hheld_set_of_ne hheld (by intro u hu; exact WState.noConfusion hu)
      · intro c hc2
        rcases List.mem_append.mp hc2 with hc2 | hc2
        · exact hcalls c hc2
        · exact ⟨t, hheld t (List.get?_mem hw), List.mem_singleton.mp hc2⟩
    · -- the call raises: the failure is logged, queued and kept in history
      have hbody : IsBodyFailure ts f := ⟨t, hheld t (List.get?_mem hw), hc⟩
      refine ⟨hq, hple, ?_, ?_, ?_, ?_, ?_, hobs, hprop, hres, ?_, ?_, ?_, ?_⟩
      · show ((s.executed ++ [t.tid]) ++ heldTids (s.workers.set i .taskDone)).Perm
          ((ts.take s.pulls).map Triple.tid)
        have hh := heldTids_set_perm (v := .taskDone) hw
        simp only [optTid, List.append_nil] at hh
        refine List.Perm.trans ?_ hperm
        rw [← Multiset.coe_eq_coe] at hh ⊢
        simp only [← Multiset.coe_add] at hh ⊢
        rw [← hh]
        abel
      · show s.unfinished_tasks = s.queue.length + busyCount (s.workers.set i .taskDone)
        rw [busyCount_set_congr .taskDone hw rfl]
        exact hunfin
      · show (s.workers.set i .taskDone).length = p.max_workers
        rw [List.length_set]
        exact hwlen
      · exact hheld_set_of_ne hheld (by intro u hu; exact WState.noConfusion hu)
      · intro g hg
        rcases List.mem_append.mp hg with hg | hg
        · exact hexc g hg
        · exact (List.mem_singleton.mp hg) ▸ hbody
      · show loggedFailures (s.log ++ [.taskException f]) = s.produced ++ [f]
        rw [loggedFailures_append, hlogf]
        rfl
      · intro g hg
        rcases List.mem_append.mp hg with hg | hg
        · exact hprodf g hg
        · exact (List.mem_singleton.mp hg) ▸ hbody
      · show (s.produced ++ [f]).length = (s.exceptions ++ [f]).length + s.observed.length
        simp only [List.length_append, List.length_singleton]
        omega
      · intro c hc2
        rcases List.mem_append.mp hc2 with hc2 | hc2
        · exact hcalls c hc2
        · exact ⟨t, hheld t (List.get?_mem hw), List.mem_singleton.mp hc2⟩
    · -- task_done decrements the pending counter
      have hbpos := busyCount_pos hw (by rfl)
      refine ⟨hq, hple, ?_, ?_, ?_, ?_, hexc, hobs, hprop, hres, hlogf, hprodf, hcount, hcalls⟩
      · exact ((heldTids_set_nil .checkFlag hw rfl rfl).append_left s.executed).trans hperm
      · show s.unfinished_tasks - 1 = s.queue.length + busyCount (s.workers.set i .checkFlag)
        have hb := busyCount_set (v := .checkFlag) hw
        simp [isBusy] at hb
        omega
      · show (s.workers.set i .checkFlag).length = p.max_workers
        rw [List.length_set]
        exact hwlen
      · exact hheld_set_of_ne hheld (by intro t ht; exact WState.noConfusion ht)
  | main now =>
    rcases mainStep_inv h with
      ⟨hm, hlen, rfl⟩ | ⟨hm, hlen, rfl⟩ | ⟨hm, hu, rfl⟩ | ⟨hm, hu, rfl⟩ |
      ⟨f, rest, hm, he, rfl⟩ | ⟨hm, he, rfl⟩ |
      ⟨interval, hm, hoi, hgt, rfl⟩ | ⟨interval, hm, hoi, hgt, rfl⟩ | ⟨hm, hoi, rfl⟩ |
      ⟨propagating, f, rest, hm, he, rfl⟩ | ⟨propagating, hm, he, rfl⟩
    · exact ⟨hq, hple, hperm, hunfin, hwlen, hheld, hexc, hobs,
        fun f hf => absurd hf (by simp), fun f j hf => absurd hf (by simp),
        hlogf, hprodf, hcount, hcalls⟩
    · exact ⟨hq, hple, hperm, hunfin, hwlen, hheld, hexc, hobs,
        fun f hf => absurd hf (by simp), fun f j hf => absurd hf (by simp),
        hlogf, hprodf, hcount, hcalls⟩
    · exact ⟨hq, hple, hperm, hunfin, hwlen, hheld, hexc, hobs,
        fun f hf => absurd hf (by simp), fun f j hf => absurd hf (by simp),
        hlogf, hprodf, hcount, hcalls⟩
    · exact ⟨hq, hple, hperm, hunfin, hwlen, hheld, hexc, hobs,
        fun f hf => absurd hf (by simp), fun f j hf => absurd hf (by simp),
        hlogf, hprodf, hcount, hcalls⟩
    · -- the loop check pops the first failure record and re-raises it
      have hf : IsBodyFailure ts f := hexc f (by rw [he]; exact List.mem_cons_self f rest)
      refine ⟨hq, hple, hperm, hunfin, hwlen, hheld, ?_, ?_, ?_, ?_, hlogf, hprodf, ?_, hcalls⟩
      · intro g hg
        exact hexc g (by rw [he]; exact List.mem_cons_of_mem f hg)
      · intro g hg
        rcases List.mem_append.mp hg with hg | hg
        · exact hobs g hg
        · exact (List.mem_singleton.mp hg) ▸ hf
      · intro g hgm
        have hgm2 : MState.finalize (some (RunErr.taskFailure f)) =
            MState.finalize (some (RunErr.taskFailure g)) := hgm
        injection hgm2 with h1
        injection h1 with h1
        injection h1 with h1
        exact h1 ▸ hf
      · intro g j hgm
        exact absurd hgm (by simp)
      · show s.produced.length = rest.length + (s.observed ++ [f]).length
        rw [he] at hcount
        simp at hcount ⊢
        omega
    · exact ⟨hq, hple, hperm, hunfin, hwlen, hheld, hexc, hobs,
        fun f hf => absurd hf (by simp), fun f j hf => absurd hf (by simp),
        hlogf, hprodf, hcount, hcalls⟩
    · -- a progress message is appended to the log
      refine ⟨hq, hple, hperm, hunfin, hwlen, hheld, hexc, hobs, ?_, ?_, ?_, hprodf, hcount, hcalls⟩
      · intro f hf
        exact absurd hf (by simp)
      · intro f j hf
        exact absurd hf (by simp)
      · show loggedFailures
          (s.log ++ [.progressMsg (now - s.start_time) s.queue.length p.funcs.length]) = s.produced
        rw [loggedFailures_append, hlogf]
        simp [loggedFailures]
    · exact ⟨hq, hple, hperm, hunfin, hwlen, hheld, hexc, hobs,
        fun f hf => absurd hf (by simp), fun f j hf => absurd hf (by simp),
        hlogf, hprodf, hcount, hcalls⟩
    · exact ⟨hq, hple, hperm, hunfin, hwlen, hheld, hexc, hobs,
        fun f hf => absurd hf (by simp), fun f j hf => absurd hf (by simp),
        hlogf, hprodf, hcount, hcalls⟩
    · -- the finally block pops a further record and re-raises it
      have hf : IsBodyFailure ts f := hexc f (by rw [he]; exact List.mem_cons_self f rest)
      refine ⟨hq, hple, hperm, hunfin, hwlen, hheld, ?_, ?_, ?_, ?_, hlogf, hprodf, ?_, hcalls⟩
      · intro g hg
        exact hexc g (by rw [he]; exact List.mem_cons_of_mem f hg)
      · intro g hg
        rcases List.mem_append.mp hg with hg | hg
        · exact hobs g hg
        · exact (List.mem_singleton.mp hg) ▸ hf
      · intro g hgm
        exact absurd hgm (by simp)
      · intro g j hgm
        have hgm2 : MState.finished (RunOutcome.taskFailure f) true =
            MState.finished (RunOutcome.taskFailure g) j := hgm
        injection hgm2 with h1 h2
        injection h1 with h1
        exact h1 ▸ hf
      · show s.produced.length = rest.length + (s.observed ++ [f]).length
        rw [he] at hcount
        simp at hcount ⊢
        omega
    · -- the finally block finds no further record
      refine ⟨hq, hple, hperm, hunfin, hwlen, hheld, hexc, hobs, ?_, ?_,
        hlogf, hprodf, hcount, hcalls⟩
      · intro g hgm
        exact absurd hgm (by simp)
      · intro g j hgm
        have hgm2 : MState.finished (propOutcome propagating) false =
            MState.finished (RunOutcome.taskFailure g) j := hgm
        injection hgm2 with h1 h2
        cases propagating with
        | none => exact absurd h1 (by simp [propOutcome])
        | some e =>
          cases e with
          | shapeError => exact absurd h1 (by simp [propOutcome])
          | taskFailure g' =>
            simp only [propOutcome] at h1
            injection h1 with h1
            exact h1 ▸ hprop g' hm

theorem reach_inv {p : Parallel} {ts : List Triple} {s s' : PoolState}
    (hr : Reach p s s') (hi : Inv p ts s) : Inv p ts s' := by
  induction hr with
  | refl => exact hi
  | tail hr c h2 ih => exact inv_step ih h2

/-! ## Shape of the observed-failure history

The caller dequeues at most one failure record in the supervisor loop
(which aborts the loop) and at most one more in the `finally` block, and
what `run_threads` raises is always the last record it dequeued. -/

structure ObsInv (s : PoolState) : Prop where
  hpre : s.main = .shapeCheck ∨ s.main = .loopCheck ∨ s.main = .excCheck ∨
    s.main = .progressStep → s.observed = []
  hfin_none : s.main = .finalize none → s.observed = []
  hfin_shape : s.main = .finalize (some .shapeError) → s.observed = []
  hfin_task : ∀ f, s.main = .finalize (some (.taskFailure f)) → s.observed = [f]
  hdone_task_j : ∀ f, s.main = .finished (.taskFailure f) true →
    s.observed = [f] ∨ ∃ f1, s.observed = [f1, f]
  hdone_task_nj : ∀ f, s.main = .finished (.taskFailure f) false → s.observed = [f]
  hdone_other : ∀ r j, s.main = .finished r j → (∀ f, r ≠ .taskFailure f) → s.observed = []

theorem obsInv_init (p : Parallel) (ts : List Triple) : ObsInv (initState p ts) := by
  refine ⟨fun _ => rfl, fun h => by simp [initState] at h, fun h => by simp [initState] at h,
    fun f h => by simp [initState] at h, fun f h => by simp [initState] at h,
    fun f h => by simp [initState] at h, fun r j h _ => rfl⟩

theorem obsInv_step {p : Parallel} {s s' : PoolState} {c : Choice}
    (ho : ObsInv s) (h : step p s c = some s') : ObsInv s' := by
  obtain ⟨hpre, hfin_none, hfin_shape, hfin_task, hdone_task_j, hdone_task_nj, hdone_other⟩ := ho
  cases c with
  | worker i =>
    rcases workerStep_inv h with
      ⟨hw, rfl⟩ | ⟨hw, hqe, rfl⟩ | ⟨t, rest, hw, hqe, rfl⟩ |
      ⟨t, hw, hc, rfl⟩ | ⟨t, f, hw, hc, rfl⟩ | ⟨hw, rfl⟩ <;>
    exact ⟨hpre, hfin_none, hfin_shape, hfin_task, hdone_task_j, hdone_task_nj, hdone_other⟩
  | main now =>
    rcases mainStep_inv h with
      ⟨hm, hlen, rfl⟩ | ⟨hm, hlen, rfl⟩ | ⟨hm, hu, rfl⟩ | ⟨hm, hu, rfl⟩ |
      ⟨f, rest, hm, he, rfl⟩ | ⟨hm, he, rfl⟩ |
      ⟨interval, hm, hoi, hgt, rfl⟩ | ⟨interval, hm, hoi, hgt, rfl⟩ | ⟨hm, hoi, rfl⟩ |
      ⟨propagating, f, rest, hm, he, rfl⟩ | ⟨propagating, hm, he, rfl⟩
    · -- shape check fails: loop never entered, nothing observed yet
      have hobs0 : s.observed = [] := hpre (Or.inl hm)
      exact ⟨fun hx => by exact absurd hx (by simp), fun hx => by exact absurd hx (by simp),
        fun _ => hobs0, fun f hx => by exact absurd hx (by simp),
        fun f hx => by exact absurd hx (by simp), fun f hx => by exact absurd hx (by simp),
        fun r j hx => by exact absurd hx (by simp)⟩
    · have hobs0 : s.observed = [] := hpre (Or.inl hm)
      exact ⟨fun _ => hobs0, fun hx => by exact absurd hx (by simp),
        fun hx => by exact absurd hx (by simp), fun f hx => by exact absurd hx (by simp),
        fun f hx => by exact absurd hx (by simp), fun f hx => by exact absurd hx (by simp),
        fun r j hx => by exact absurd hx (by simp)⟩
    · have hobs0 : s.observed = [] := hpre (Or.inr (Or.inl hm))
      exact ⟨fun _ => hobs0, fun hx => by exact absurd hx (by simp),
        fun hx => by exact absurd hx (by simp), fun f hx => by exact absurd hx (by simp),
        fun f hx => by exact absurd hx (by simp), fun f hx => by exact absurd hx (by simp),
        fun r j hx => by exact absurd hx (by simp)⟩
    · have hobs0 : s.observed = [] := hpre (Or.inr (Or.inl hm))
      exact ⟨fun hx => by exact absurd hx (by simp), fun _ => hobs0,
        fun hx => by exact absurd hx (by simp), fun f hx => by exact absurd hx (by simp),
        fun f hx => by exact absurd hx (by simp), fun f hx => by exact absurd hx (by simp),
        fun r j hx => by exact absurd hx (by simp)⟩
    · -- the loop observes the first record
      have hobs0 : s.observed = [] := hpre (Or.inr (Or.inr (Or.inl hm)))
      refine ⟨fun hx => by exact absurd hx (by simp), fun hx => by exact absurd hx (by simp),
        fun hx => by exact absurd hx (by simp), ?_,
        fun g hx => by exact absurd hx (by simp), fun g hx => by exact absurd hx (by simp),
        fun r j hx => by exact absurd hx (by simp)⟩
      intro g hx
      have hx2 : MState.finalize (some (RunErr.taskFailure f)) =
          MState.finalize (some (RunErr.taskFailure g)) := hx
      injection hx2 with h1
      injection h1 with h1
      injection h1 with h1
      show s.observed ++ [f] = [g]
      rw [hobs0, h1]
      rfl
    · have hobs0 : s.observed = [] := hpre (Or.inr (Or.inr (Or.inl hm)))
      exact ⟨fun _ => hobs0, fun hx => by exact absurd hx (by simp),
        fun hx => by exact absurd hx (by simp), fun f hx => by exact absurd hx (by simp),
        fun f hx => by exact absurd hx (by simp), fun f hx => by exact absurd hx (by simp),
        fun r j hx => by exact absurd hx (by simp)⟩
    · have hobs0 : s.observed = [] := hpre (Or.inr (Or.inr (Or.inr hm)))
      exact ⟨fun _ => hobs0, fun hx => by exact absurd hx (by simp),
        fun hx => by exact absurd hx (by simp), fun f hx => by exact absurd hx (by simp),
        fun f hx => by exact absurd hx (by simp), fun f hx => by exact absurd hx (by simp),
        fun r j hx => by exact absurd hx (by simp)⟩
    · have hobs0 : s.observed = [] := hpre (Or.inr (Or.inr (Or.inr hm)))
      exact ⟨fun _ => hobs0, fun hx => by exact absurd hx (by simp),
        fun hx => by exact absurd hx (by simp), fun f hx => by exact absurd hx (by simp),
        fun f hx => by exact absurd hx (by simp), fun f hx => by exact absurd hx (by simp),
        fun r j hx => by exact absurd hx (by simp)⟩
    · have hobs0 : s.observed = [] := hpre (Or.inr (Or.inr (Or.inr hm)))
      exact ⟨fun _ => hobs0, fun hx => by exact absurd hx (by simp),
        fun hx => by exact absurd hx (by simp), fun f hx => by exact absurd hx (by simp),
        fun f hx => by exact absurd hx (by simp), fun f hx => by exact absurd hx (by simp),
        fun r j hx => by exact absurd hx (by simp)⟩
    · -- the finally block observes a further record and re-raises it
      refine ⟨fun hx => by exact absurd hx (by simp), fun hx => by exact absurd hx (by simp),
        fun hx => by exact absurd hx (by simp), fun g hx => by exact absurd hx (by simp),
        ?_, fun g hx => by exact absurd hx (by simp), ?_⟩
      · intro g hx
        have hx2 : MState.finished (RunOutcome.taskFailure f) true =
            MState.finished (RunOutcome.taskFailure g) true := hx
        injection hx2 with h1 h2
        injection h1 with h1
        subst h1
        show s.observed ++ [f] = [f] ∨ ∃ f1, s.observed ++ [f] = [f1, f]
        cases propagating with
        | none =>
          rw [hfin_none hm]
          exact Or.inl rfl
        | some e =>
          cases e with
          | shapeError =>
            rw [hfin_shape hm]
            exact Or.inl rfl
          | taskFailure f1 =>
            rw [hfin_task f1 hm]
            exact Or.inr ⟨f1, rfl⟩
      · intro r j hx hne
        have hx2 : MState.finished (RunOutcome.taskFailure f) true = MState.finished r j := hx
        injection hx2 with h1 h2
        exact absurd h1.symm (hne f)
    · -- the finally block finds nothing further
      refine ⟨fun hx => by exact absurd hx (by simp), fun hx => by exact absurd hx (by simp),
        fun hx => by exact absurd hx (by simp), fun g hx => by exact absurd hx (by simp),
        fun g hx => by exact absurd hx (by simp), ?_, ?_⟩
      · intro g hx
        have hx2 : MState.finished (propOutcome propagating) false =
            MState.finished (RunOutcome.taskFailure g) false := hx
        injection hx2 with h1 h2
        cases propagating with
        | none => exact absurd h1 (by simp [propOutcome])
        | some e =>
          cases e with
          | shapeError => exact absurd h1 (by simp [propOutcome])
          | taskFailure g' =>
            simp only [propOutcome] at h1
            injection h1 with h1
            subst h1
            exact hfin_task g' hm
      · intro r j hx hne
        have hx2 : MState.finished (propOutcome propagating) false = MState.finished r j := hx
        injection hx2 with h1 h2
        cases propagating with
        | none => exact hfin_none hm
        | some e =>
          cases e with
          | shapeError => exact hfin_shape hm
          | taskFailure g' =>
            simp only [propOutcome] at h1
            exact absurd h1.symm (hne g')

theorem reach_obsInv {p : Parallel} {s s' : PoolState}
    (hr : Reach p s s') (ho : ObsInv s) : ObsInv s' := by
  induction hr with
  | refl => exact ho
  | tail hr c h2 ih => exact obsInv_step ih h2

/-! ## Fail-fast flag monotonicity and the pull budget -/

theorem step_flag_false {p : Parallel} {s s' : PoolState} {c : Choice}
    (hroe : p.run_over_exceptions = false)
    (h : step p s c = some s') (hk : s.keep_running = false) :
    s'.keep_running = false ∧
      s'.pulls + tryGetCount s'.workers ≤ s.pulls + tryGetCount s.workers := by
  cases c with
  | worker i =>
    rcases workerStep_inv h with
      ⟨hw, rfl⟩ | ⟨hw, hqe, rfl⟩ | ⟨t, rest, hw, hqe, rfl⟩ |
      ⟨t, hw, hc, rfl⟩ | ⟨t, f, hw, hc, rfl⟩ | ⟨hw, rfl⟩
    · constructor
      · exact hk
      · show s.pulls + tryGetCount
          (s.workers.set i (if s.keep_running then .tryGet else .exited)) ≤
          s.pulls + tryGetCount s.workers
        rw [hk, if_neg (by simp)]
        have := tryGetCount_set (v := .exited) hw
        simp [isTryGet] at this
        omega
    · constructor
      · exact hk
      · show s.pulls + tryGetCount (s.workers.set i .exited) ≤ s.pulls + tryGetCount s.workers
        have := tryGetCount_set (v := .exited) hw
        simp [isTryGet] at this
        omega
    · constructor
      · exact hk
      · show (s.pulls + 1) + tryGetCount (s.workers.set i (.exec t)) ≤
          s.pulls + tryGetCount s.workers
        have := tryGetCount_set (v := .exec t) hw
        simp [isTryGet] at this
        omega
    · constructor
      · exact hk
      · show s.pulls + tryGetCount (s.workers.set i .taskDone) ≤ s.pulls + tryGetCount s.workers
        have := tryGetCount_set (v := .taskDone) hw
        simp [isTryGet] at this
        omega
    · constructor
      · exact hroe
      · show s.pulls + tryGetCount (s.workers.set i .taskDone) ≤ s.pulls + tryGetCount s.workers
        have := tryGetCount_set (v := .taskDone) hw
        simp [isTryGet] at this
        omega
    · constructor
      · exact hk
      · show s.pulls + tryGetCount (s.workers.set i .checkFlag) ≤ s.pulls + tryGetCount s.workers
        have := tryGetCount_set (v := .checkFlag) hw
        simp [isTryGet] at this
        omega
  | main now =>
    rcases mainStep_inv h with
      ⟨hm, hlen, rfl⟩ | ⟨hm, hlen, rfl⟩ | ⟨hm, hu, rfl⟩ | ⟨hm, hu, rfl⟩ |
      ⟨f, rest, hm, he, rfl⟩ | ⟨hm, he, rfl⟩ |
      ⟨interval, hm, hoi, hgt, rfl⟩ | ⟨interval, hm, hoi, hgt, rfl⟩ | ⟨hm, hoi, rfl⟩ |
      ⟨propagating, f, rest, hm, he, rfl⟩ | ⟨propagating, hm, he, rfl⟩ <;>
    first
      | exact ⟨hk, le_refl _⟩
      | exact ⟨hroe, le_refl _⟩

theorem reach_flag_false {p : Parallel} {s s' : PoolState}
    (hroe : p.run_over_exceptions = false)
    (hr : Reach p s s') (hk : s.keep_running = false) :
    s'.keep_running = false ∧
      s'.pulls + tryGetCount s'.workers ≤ s.pulls + tryGetCount s.workers := by
  induction hr with
  | refl => exact ⟨hk, le_refl _⟩
  | tail hr c h2 ih =>
    have h3 := step_flag_false hroe h2 ih.1
    exact ⟨h3.1, le_trans h3.2 ih.2⟩

/-! ## Run-over-exceptions mode: the flag never drops -/

theorem step_flag_true {p : Parallel} {s s' : PoolState} {c : Choice}
    (hroe : p.run_over_exceptions = true)
    (h : step p s c = some s') (hk : s.keep_running = true)
    (hex : WState.exited ∈ s.workers → s.queue = []) :
    s'.keep_running = true ∧ (WState.exited ∈ s'.workers → s'.queue = []) := by
  cases c with
  | worker i =>
    rcases workerStep_inv h with
      ⟨hw, rfl⟩ | ⟨hw, hqe, rfl⟩ | ⟨t, rest, hw, hqe, rfl⟩ |
      ⟨t, hw, hc, rfl⟩ | ⟨t, f, hw, hc, rfl⟩ | ⟨hw, rfl⟩
    · refine ⟨hk, ?_⟩
      show WState.exited ∈ s.workers.set i (if s.keep_running then .tryGet else .exited) →
        s.queue = []
      rw [hk]
      intro hmem
      rcases List.mem_or_eq_of_mem_set hmem with hmem | hmem
      · exact hex hmem
      · exact absurd hmem (by simp)
    · refine ⟨hk, fun _ => hqe⟩
    · refine ⟨hk, ?_⟩
      intro hmem
      rcases List.mem_or_eq_of_mem_set hmem with hmem | hmem
      · exact absurd hqe (by rw [hex hmem]; simp)
      · exact absurd hmem (by simp)
    · refine ⟨hk, ?_⟩
      intro hmem
      rcases List.mem_or_eq_of_mem_set hmem with hmem | hmem
      · exact hex hmem
      · exact absurd hmem (by simp)
    · refine ⟨hroe, ?_⟩
      intro hmem
      rcases List.mem_or_eq_of_mem_set hmem with hmem | hmem
      · exact hex hmem
      · exact absurd hmem (by simp)
    · refine ⟨hk, ?_⟩
      intro hmem
      rcases List.mem_or_eq_of_mem_set hmem with hmem | hmem
      · exact hex hmem
      · exact absurd hmem (by simp)
  | main now =>
    rcases mainStep_inv h with
      ⟨hm, hlen, rfl⟩ | ⟨hm, hlen, rfl⟩ | ⟨hm, hu, rfl⟩ | ⟨hm, hu, rfl⟩ |
      ⟨f, rest, hm, he, rfl⟩ | ⟨hm, he, rfl⟩ |
      ⟨interval, hm, hoi, hgt, rfl⟩ | ⟨interval, hm, hoi, hgt, rfl⟩ | ⟨hm, hoi, rfl⟩ |
      ⟨propagating, f, rest, hm, he, rfl⟩ | ⟨propagating, hm, he, rfl⟩ <;>
    first
      | exact ⟨hk, hex⟩
      | exact ⟨hroe, hex⟩

theorem reach_flag_true {p : Parallel} {s s' : PoolState}
    (hroe : p.run_over_exceptions = true)
    (hr : Reach p s s') (hk : s.keep_running = true)
    (hex : WState.exited ∈ s.workers → s.queue = []) :
    s'.keep_running = true ∧ (WState.exited ∈ s'.workers → s'.queue = []) := by
  induction hr with
  | refl => exact ⟨hk, hex⟩
  | tail hr c h2 ih => exact step_flag_true hroe h2 ih.1 ih.2

/-! ## A normal return means no task ever failed -/

structure NormalInv (s : PoolState) : Prop where
  hfn : s.main = .finalize none → s.queue = [] ∧ busyCount s.workers = 0
  hnm : ∀ j, s.main = .finished .normal j →
    s.queue = [] ∧ busyCount s.workers = 0 ∧ s.produced = []

theorem normalInv_init (p : Parallel) (ts : List Triple) : NormalInv (initState p ts) := by
  refine ⟨fun h => by simp [initState] at h, fun j h => by simp [initState] at h⟩

theorem normalInv_step {p : Parallel} {ts : List Triple} {s s' : PoolState} {c : Choice}
    (hi : Inv p ts s) (ho : ObsInv s) (hn : NormalInv s)
    (h : step p s c = some s') : NormalInv s' := by
  obtain ⟨hfn, hnm⟩ := hn
  cases c with
  | worker i =>
    rcases workerStep_inv h with
      ⟨hw, rfl⟩ | ⟨hw, hqe, rfl⟩ | ⟨t, rest, hw, hqe, rfl⟩ |
      ⟨t, hw, hc, rfl⟩ | ⟨t, f, hw, hc, rfl⟩ | ⟨hw, rfl⟩
    · -- checkFlag: queue, produced unchanged; new pc holds nothing busy
      cases hkr : s.keep_running
      · refine ⟨?_, ?_⟩
        · intro hm
          obtain ⟨h1, h2⟩ := hfn hm
          refine ⟨h1, ?_⟩
          show busyCount (s.workers.set i WState.exited) = 0
          rw [busyCount_set_congr .exited hw rfl]
          exact h2
        · intro j hm
          obtain ⟨h1, h2, h3⟩ := hnm j hm
          refine ⟨h1, ?_, h3⟩
          show busyCount (s.workers.set i WState.exited) = 0
          rw [busyCount_set_congr .exited hw rfl]
          exact h2
      · refine ⟨?_, ?_⟩
        · intro hm
          obtain ⟨h1, h2⟩ := hfn hm
          refine ⟨h1, ?_⟩
          show busyCount (s.workers.set i WState.tryGet) = 0
          rw [busyCount_set_congr .tryGet hw rfl]
          exact h2
        · intro j hm
          obtain ⟨h1, h2, h3⟩ := hnm j hm
          refine ⟨h1, ?_, h3⟩
          show busyCount (s.workers.set i WState.tryGet) = 0
          rw [busyCount_set_congr .tryGet hw rfl]
          exact h2
    · refine ⟨?_, ?_⟩
      · intro hm
        obtain ⟨h1, h2⟩ := hfn hm
        refine ⟨h1, ?_⟩
        show busyCount (s.workers.set i WState.exited) = 0
        rw [busyCount_set_congr .exited hw rfl]
        exact h2
      · intro j hm
        obtain ⟨h1, h2, h3⟩ := hnm j hm
        refine ⟨h1, ?_, h3⟩
        show busyCount (s.workers.set i WState.exited) = 0
        rw [busyCount_set_congr .exited hw rfl]
        exact h2
    · -- a pull contradicts the empty queue of the normal path
      refine ⟨?_, ?_⟩
      · intro hm
        obtain ⟨h1, h2⟩ := hfn hm
        rw [h1] at hqe
        exact absurd hqe (by simp)
      · intro j hm
        obtain ⟨h1, h2, h3⟩ := hnm j hm
        rw [h1] at hqe
        exact absurd hqe (by simp)
    · -- an executing worker contradicts zero busy workers
      refine ⟨?_, ?_⟩
      · intro hm
        obtain ⟨h1, h2⟩ := hfn hm
        have := busyCount_pos hw (by rfl)
        omega
      · intro j hm
        obtain ⟨h1, h2, h3⟩ := hnm j hm
        have := busyCount_pos hw (by rfl)
        omega
    · refine ⟨?_, ?_⟩
      · intro hm
        obtain ⟨h1, h2⟩ := hfn hm
        have := busyCount_pos hw (by rfl)
        omega
      · intro j hm
        obtain ⟨h1, h2, h3⟩ := hnm j hm
        have := busyCount_pos hw (by rfl)
        omega
    · refine ⟨?_, ?_⟩
      · intro hm
        obtain ⟨h1, h2⟩ := hfn hm
        have := busyCount_pos hw (by rfl)
        omega
      · intro j hm
        obtain ⟨h1, h2, h3⟩ := hnm j hm
        have := busyCount_pos hw (by rfl)
        omega
  | main now =>
    rcases mainStep_inv h with
      ⟨hm, hlen, rfl⟩ | ⟨hm, hlen, rfl⟩ | ⟨hm, hu, rfl⟩ | ⟨hm, hu, rfl⟩ |
      ⟨f, rest, hm, he, rfl⟩ | ⟨hm, he, rfl⟩ |
      ⟨interval, hm, hoi, hgt, rfl⟩ | ⟨interval, hm, hoi, hgt, rfl⟩ | ⟨hm, hoi, rfl⟩ |
      ⟨propagating, f, rest, hm, he, rfl⟩ | ⟨propagating, hm, he, rfl⟩
    · exact ⟨fun hx => by exact absurd hx (by simp), fun j hx => by exact absurd hx (by simp)⟩
    · exact ⟨fun hx => by exact absurd hx (by simp), fun j hx => by exact absurd hx (by simp)⟩
    · exact ⟨fun hx => by exact absurd hx (by simp), fun j hx => by exact absurd hx (by simp)⟩
    · -- the loop exits with a zero pending count
      refine ⟨?_, fun j hx => by exact absurd hx (by simp)⟩
      intro _
      have h2 := hi.hunfin
      rw [hu] at h2
      constructor
      · show s.queue = []
        have h3 : s.queue.length = 0 := by omega
        exact List.length_eq_zero.mp h3
      · show busyCount s.workers = 0
        omega
    · exact ⟨fun hx => by exact absurd hx (by simp), fun j hx => by exact absurd hx (by simp)⟩
    · exact ⟨fun hx => by exact absurd hx (by simp), fun j hx => by exact absurd hx (by simp)⟩
    · exact ⟨fun hx => by exact absurd hx (by simp), fun j hx => by exact absurd hx (by simp)⟩
    · exact ⟨fun hx => by exact absurd hx (by simp), fun j hx => by exact absurd hx (by simp)⟩
    · exact ⟨fun hx => by exact absurd hx (by simp), fun j hx => by exact absurd hx (by simp)⟩
    · -- finished with a re-raised task failure is not a normal return
      refine ⟨fun hx => by exact absurd hx (by simp), ?_⟩
      intro j hx
      have hx2 : MState.finished (RunOutcome.taskFailure f) true =
          MState.finished RunOutcome.normal j := hx
      injection hx2 with h1 h2
      exact absurd h1 (by simp)
    · -- finished with no further record: normal only on the none path
      refine ⟨fun hx => by exact absurd hx (by simp), ?_⟩
      intro j hx
      have hx2 : MState.finished (propOutcome propagating) false =
          MState.finished RunOutcome.normal j := hx
      injection hx2 with h1 h2
      cases propagating with
      | none =>
        obtain ⟨h3, h4⟩ := hfn hm
        refine ⟨h3, h4, ?_⟩
        have h5 := hi.hcount
        rw [he, ObsInv.hfin_none ho hm] at h5
        simp only [List.length_nil, Nat.add_zero] at h5
        exact List.length_eq_zero.mp h5
      | some e =>
        cases e with
        | shapeError => exact absurd h1 (by simp [propOutcome])
        | taskFailure g => exact absurd h1 (by simp [propOutcome])

theorem reach_all {p : Parallel} {ts : List Triple} {s' : PoolState}
    (hr : Reach p (initState p ts) s') : Inv p ts s' ∧ ObsInv s' ∧ NormalInv s' := by
  induction hr with
  | refl => exact ⟨inv_init p ts, obsInv_init p ts, normalInv_init p ts⟩
  | tail hr c h2 ih =>
    exact ⟨inv_step ih.1 h2, obsInv_step ih.2.1 h2, normalInv_step ih.1 ih.2.1 ih.2.2 h2⟩

theorem reach_normalInv {p : Parallel} {ts : List Triple} {s' : PoolState}
    (hr : Reach p (initState p ts) s') : NormalInv s' :=
  (reach_all hr).2.2

/-! ## Quiescent states -/

/-- No thread of the pool can take another step: every worker has
returned from `_wrapped` and the `run_threads` call has finished. -/
def Terminal (p : Parallel) (s : PoolState) : Prop := ∀ c, step p s c = none

theorem terminal_worker_exited {p : Parallel} {s : PoolState} (ht : Terminal p s)
    {i : Nat} {w : WState} (hw : s.workers.get? i = some w) : w = .exited := by
  have h1 := ht (Choice.worker i)
  have hw2 : s.workers[i]? = some w := by rw [← List.get?_eq_getElem?]; exact hw
  cases w with
  | exited => rfl
  | checkFlag => simp [step, workerStep, hw2] at h1
  | tryGet => cases hq : s.queue <;> simp [step, workerStep, hw2, hq] at h1
  | exec t => cases hc : callOutcome t <;> simp [step, workerStep, hw2, hc] at h1
  | taskDone => simp [step, workerStep, hw2] at h1

theorem terminal_main_finished {p : Parallel} {s : PoolState} (ht : Terminal p s) :
    ∃ r j, s.main = .finished r j := by
  have h1 := ht (Choice.main 0)
  cases hm : s.main with
  | finished r j => exact ⟨r, j, rfl⟩
  | shapeCheck =>
    simp only [step, mainStep, hm] at h1
    split at h1 <;> simp at h1
  | loopCheck =>
    simp only [step, mainStep, hm] at h1
    split at h1 <;> simp at h1
  | excCheck =>
    cases he : s.exceptions <;> simp [step, mainStep, hm, he] at h1
  | progressStep =>
    simp only [step, mainStep, hm] at h1
    split at h1
    · split at h1 <;> simp at h1
    · simp at h1
  | finalize propagating =>
    cases he : s.exceptions <;> simp [step, mainStep, hm, he] at h1

theorem heldTids_eq_nil_of_exited {ws : List WState} (h : ∀ w ∈ ws, w = .exited) :
    heldTids ws = [] := by
  induction ws with
  | nil => rfl
  | cons a tl ih =>
    have ha := h a (by simp)
    subst ha
    simp only [heldTids, List.flatMap_cons, optTid, List.nil_append]
    exact ih (fun w hw => h w (by simp [hw]))

theorem busyCount_eq_zero_of_exited {ws : List WState} (h : ∀ w ∈ ws, w = .exited) :
    busyCount ws = 0 := by
  induction ws with
  | nil => rfl
  | cons a tl ih =>
    have ha := h a (by simp)
    subst ha
    simp only [busyCount, List.countP_cons, isBusy]
    have := ih (fun w hw => h w (by simp [hw]))
    simp [busyCount] at this
    simpa using this

/-! ## Properties of the enqueue phase -/

theorem izip_longest3_length (fs : List FuncEntry) (al : List ArgsEntry) (kl : List KwEntry) :
    (izip_longest3 fs al kl).length = max fs.length (max al.length kl.length) := by
  simp [izip_longest3]

theorem izip_longest3_get? (fs : List FuncEntry) (al : List ArgsEntry) (kl : List KwEntry)
    {j : Nat} (h : j < max fs.length (max al.length kl.length)) :
    (izip_longest3 fs al kl).get? j =
      some (fs.getD j .fillDict, al.getD j .fillDict, kl.getD j .fillDict) := by
  simp [izip_longest3, List.get?_eq_getElem?, List.getElem?_map, List.getElem?_range h]

theorem getD_mem_or {α : Type _} (l : List α) (j : Nat) (d : α) :
    l.getD j d ∈ l ∨ l.getD j d = d := by
  rcases hg : l.get? j with _ | v
  · right
    rw [List.getD_eq_getElem?_getD, ← List.get?_eq_getElem?, hg]
    rfl
  · left
    have : l.getD j d = v := by
      rw [List.getD_eq_getElem?_getD, ← List.get?_eq_getElem?, hg]
      rfl
    rw [this]
    exact List.get?_mem hg

theorem enqueueTriples_ok_spec {zs : List (FuncEntry × ArgsEntry × KwEntry)} :
    ∀ {i : Nat} {ts : List Triple}, enqueueTriples i zs = Except.ok ts →
      ts.length = zs.length ∧
      ∀ j f a k, zs.get? j = some (f, a, k) → ts.get? j = some ⟨i + j, f, a, k⟩ := by
  induction zs with
  | nil =>
    intro i ts h
    simp only [enqueueTriples] at h
    injection h with h
    subst h
    exact ⟨rfl, by intro j f a k hj; simp at hj⟩
  | cons hd tl ih =>
    intro i ts h
    obtain ⟨f0, a0, k0⟩ := hd
    cases a0 with
    | strEntry m => simp [enqueueTriples] at h
    | tup xs =>
      simp only [enqueueTriples] at h
      cases hrec : enqueueTriples (i + 1) tl with
      | error m => rw [hrec] at h; simp at h
      | ok ts' =>
        rw [hrec] at h
        injection h with h
        subst h
        obtain ⟨hlen, hget⟩ := ih hrec
        refine ⟨by simp [hlen], ?_⟩
        intro j f a k hj
        cases j with
        | zero =>
          simp at hj
          obtain ⟨hf, ha, hk⟩ := hj
          subst hf; subst hk
          simp [← ha]
        | succ n =>
          simp only [List.get?_cons_succ] at hj ⊢
          have := hget n f a k hj
          rw [show i + (n + 1) = i + 1 + n by omega]
          exact this
    | fillDict =>
      simp only [enqueueTriples] at h
      cases hrec : enqueueTriples (i + 1) tl with
      | error m => rw [hrec] at h; simp at h
      | ok ts' =>
        rw [hrec] at h
        injection h with h
        subst h
        obtain ⟨hlen, hget⟩ := ih hrec
        refine ⟨by simp [hlen], ?_⟩
        intro j f a k hj
        cases j with
        | zero =>
          simp at hj
          obtain ⟨hf, ha, hk⟩ := hj
          subst hf; subst hk
          simp [← ha]
        | succ n =>
          simp only [List.get?_cons_succ] at hj ⊢
          have := hget n f a k hj
          rw [show i + (n + 1) = i + 1 + n by omega]
          exact this

theorem enqueueTriples_map_tid {zs : List (FuncEntry × ArgsEntry × KwEntry)} :
    ∀ {i : Nat} {ts : List Triple}, enqueueTriples i zs = Except.ok ts →
      ts.map Triple.tid = List.range' i zs.length := by
  induction zs with
  | nil =>
    intro i ts h
    simp only [enqueueTriples] at h
    injection h with h
    subst h
    rfl
  | cons hd tl ih =>
    intro i ts h
    obtain ⟨f0, a0, k0⟩ := hd
    cases a0 with
    | strEntry m => simp [enqueueTriples] at h
    | tup xs =>
      simp only [enqueueTriples] at h
      cases hrec : enqueueTriples (i + 1) tl with
      | error m => rw [hrec] at h; simp at h
      | ok ts' =>
        rw [hrec] at h
        injection h with h
        subst h
        simp only [List.map_cons, List.length_cons]
        rw [ih hrec, List.range'_succ]
    | fillDict =>
      simp only [enqueueTriples] at h
      cases hrec : enqueueTriples (i + 1) tl with
      | error m => rw [hrec] at h; simp at h
      | ok ts' =>
        rw [hrec] at h
        injection h with h
        subst h
        simp only [List.map_cons, List.length_cons]
        rw [ih hrec, List.range'_succ]

theorem enqueueTriples_ok_of_no_string {zs : List (FuncEntry × ArgsEntry × KwEntry)}
    (h : ∀ f a k, (f, a, k) ∈ zs → ∀ m, a ≠ ArgsEntry.strEntry m) :
    ∀ i, ∃ ts, enqueueTriples i zs = Except.ok ts := by
  induction zs with
  | nil => exact fun i => ⟨[], rfl⟩
  | cons hd tl ih =>
    intro i
    obtain ⟨f0, a0, k0⟩ := hd
    cases a0 with
    | strEntry m => exact absurd rfl (h f0 (.strEntry m) k0 (by simp) m)
    | tup xs =>
      obtain ⟨ts', hts'⟩ := ih (fun f a k hm m => h f a k (by simp [hm]) m) (i + 1)
      exact ⟨⟨i, f0, .tup xs, k0⟩ :: ts', by simp [enqueueTriples, hts']⟩
    | fillDict =>
      obtain ⟨ts', hts'⟩ := ih (fun f a k hm m => h f a k (by simp [hm]) m) (i + 1)
      exact ⟨⟨i, f0, .fillDict, k0⟩ :: ts', by simp [enqueueTriples, hts']⟩

theorem enqueueTriples_error_of_string {zs : List (FuncEntry × ArgsEntry × KwEntry)}
    (h : ∃ f m k, (f, ArgsEntry.strEntry m, k) ∈ zs) :
    ∀ i, enqueueTriples i zs = Except.error strCheckMsg := by
  induction zs with
  | nil =>
    obtain ⟨f, m, k, hm⟩ := h
    exact absurd hm (by simp)
  | cons hd tl ih =>
    intro i
    obtain ⟨f0, a0, k0⟩ := hd
    cases a0 with
    | strEntry m => rfl
    | tup xs =>
      obtain ⟨f, m, k, hm⟩ := h
      rcases List.mem_cons.mp hm with hm | hm
      · exact absurd hm (by simp)
      · have := ih ⟨f, m, k, hm⟩ (i + 1)
        simp [enqueueTriples, this]
    | fillDict =>
      obtain ⟨f, m, k, hm⟩ := h
      rcases List.mem_cons.mp hm with hm | hm
      · exact absurd hm (by simp)
      · have := ih ⟨f, m, k, hm⟩ (i + 1)
        simp [enqueueTriples, this]

/-! ## Evaluating single steps symbolically -/

theorem runSched_cons_some {p : Parallel} {s s' : PoolState} {c : Choice} {cs : List Choice}
    (h : step p s c = some s') : runSched p s (c :: cs) = runSched p s' cs := by
  simp [runSched, h]

theorem workerStep_checkFlag_true {p : Parallel} {s : PoolState} {i : Nat}
    (hw : s.workers.get? i = some .checkFlag) (hk : s.keep_running = true) :
    step p s (.worker i) = some { s with workers := s.workers.set i .tryGet } := by
  show workerStep p s i = _
  unfold workerStep
  rw [hw]
  dsimp only
  rw [hk]
  rfl

theorem workerStep_tryGet_cons {p : Parallel} {s : PoolState} {i : Nat} {t : Triple}
    {rest : List Triple} (hw : s.workers.get? i = some .tryGet) (hq : s.queue = t :: rest) :
    step p s (.worker i) =
      some { s with queue := rest, workers := s.workers.set i (.exec t),
                    pulls := s.pulls + 1 } := by
  show workerStep p s i = _
  unfold workerStep
  rw [hw]
  dsimp only
  rw [hq]

theorem workerStep_tryGet_nil {p : Parallel} {s : PoolState} {i : Nat}
    (hw : s.workers.get? i = some .tryGet) (hq : s.queue = []) :
    step p s (.worker i) = some { s with workers := s.workers.set i .exited } := by
  show workerStep p s i = _
  unfold workerStep
  rw [hw]
  dsimp only
  rw [hq]

theorem workerStep_exec_ok {p : Parallel} {s : PoolState} {i : Nat} {t : Triple}
    (hw : s.workers.get? i = some (.exec t)) (hc : callOutcome t = Except.ok ()) :
    step p s (.worker i) =
      some { s with workers := s.workers.set i .taskDone,
                    executed := s.executed ++ [t.tid],
                    calls := s.calls ++ [(t.tid, unpackArgs t.args, unpackKwargs t.kwargs)] } := by
  show workerStep p s i = _
  unfold workerStep
  rw [hw]
  dsimp only
  rw [hc]

theorem workerStep_exec_err {p : Parallel} {s : PoolState} {i : Nat} {t : Triple} {f : Failure}
    (hw : s.workers.get? i = some (.exec t)) (hc : callOutcome t = Except.error f) :
    step p s (.worker i) =
      some { s with workers := s.workers.set i .taskDone,
                    executed := s.executed ++ [t.tid],
                    calls := s.calls ++ [(t.tid, unpackArgs t.args, unpackKwargs t.kwargs)],
                    keep_running := p.run_over_exceptions,
                    log := s.log ++ [.taskException f],
                    exceptions := s.exceptions ++ [f],
                    produced := s.produced ++ [f] } := by
  show workerStep p s i = _
  unfold workerStep
  rw [hw]
  dsimp only
  rw [hc]

theorem workerStep_taskDone {p : Parallel} {s : PoolState} {i : Nat}
    (hw : s.workers.get? i = some .taskDone) :
    step p s (.worker i) =
      some { s with unfinished_tasks := s.unfinished_tasks - 1,
                    workers := s.workers.set i .checkFlag } := by
  show workerStep p s i = _
  unfold workerStep
  rw [hw]

theorem mainStep_shape_ok {p : Parallel} {s : PoolState} (now : Nat)
    (hm : s.main = .shapeCheck)
    (hlen : ¬(p.funcs.length < p.args_list.length ∨ p.funcs.length < p.kwargs_list.length)) :
    step p s (.main now) =
      some { s with main := .loopCheck, start_time := now,
                    last_output_time := now } := by
  show mainStep p s now = _
  unfold mainStep
  rw [hm, if_neg hlen]

theorem mainStep_loopCheck_zero {p : Parallel} {s : PoolState} (now : Nat)
    (hm : s.main = .loopCheck) (hz : s.unfinished_tasks = 0) :
    step p s (.main now) = some { s with main := .finalize none } := by
  show mainStep p s now = _
  unfold mainStep
  rw [hm, hz]
  rfl

theorem mainStep_finalize_nil {p : Parallel} {s : PoolState} (now : Nat)
    {propagating : Option RunErr} (hm : s.main = .finalize propagating)
    (he : s.exceptions = []) :
    step p s (.main now) =
      some { s with main := .finished (propOutcome propagating) false } := by
  show mainStep p s now = _
  unfold mainStep
  rw [hm, he]

/-! ## A schedule on which one worker drains the whole queue -/

/-- Worker `i` handles one task with four atomic steps; repeat per task. -/
def drainSched (i : Nat) : List Triple → List Choice
  | [] => []
  | _ :: rest => .worker i :: .worker i :: .worker i :: .worker i :: drainSched i rest

theorem drain_run (p : Parallel) (l : List Triple) :
    ∀ (s : PoolState), s.queue = l → s.workers.get? 0 = some .checkFlag →
      s.keep_running = true →
      (∀ t ∈ l, callOutcome t = Except.ok () ∨ p.run_over_exceptions = true) →
      ∃ s', runSched p s (drainSched 0 l) = s' ∧
        s'.queue = [] ∧ s'.workers = s.workers ∧ s'.keep_running = true ∧
        s'.executed = s.executed ++ l.map Triple.tid ∧
        s'.unfinished_tasks = s.unfinished_tasks - l.length ∧
        s'.main = s.main ∧ s'.pulls = s.pulls + l.length ∧
        s'.observed = s.observed ∧ s'.start_time = s.start_time ∧
        s'.last_output_time = s.last_output_time ∧
        ((∀ u ∈ l, callOutcome u = Except.ok ()) → s'.exceptions = s.exceptions) := by
  induction l with
  | nil =>
    intro s hq hw0 hk hok
    exact ⟨s, rfl, hq, rfl, hk, by simp, by simp, rfl, by simp, rfl, rfl, rfl, fun _ => rfl⟩
  | cons t rest ih =>
    intro s hq hw0 hk hok
    -- step 1: the flag check passes
    have h1 := workerStep_checkFlag_true (p := p) hw0 hk
    set s1 : PoolState := { s with workers := s.workers.set 0 .tryGet } with hs1
    -- step 2: pull the head task
    have hw1 : s1.workers.get? 0 = some .tryGet := get?_set_self _ 0 _ _ hw0
    have h2 := workerStep_tryGet_cons (p := p) (t := t) hw1 hq
    set s2 : PoolState :=
      { s1 with queue := rest, workers := s1.workers.set 0 (.exec t),
                pulls := s1.pulls + 1 }
      with hs2
    have hw2 : s2.workers.get? 0 = some (.exec t) := get?_set_self _ 0 _ _ hw1
    -- step 3: run the task (either outcome keeps the flag up here)
    cases hco : callOutcome t with
    | ok u =>
      cases u
      have h3 := workerStep_exec_ok (p := p) hw2 hco
      set s3 : PoolState :=
        { s2 with workers := s2.workers.set 0 .taskDone,
                  executed := s2.executed ++ [t.tid],
                  calls := s2.calls ++ [(t.tid, unpackArgs t.args, unpackKwargs t.kwargs)] }
        with hs3
      have hw3 : s3.workers.get? 0 = some .taskDone := get?_set_self _ 0 _ _ hw2
      have h4 := workerStep_taskDone (p := p) hw3
      set s4 : PoolState :=
        { s3 with unfinished_tasks := s3.unfinished_tasks - 1,
                  workers := s3.workers.set 0 .checkFlag }
        with hs4
      have hws4 : s4.workers = s.workers := by
        show (((s.workers.set 0 .tryGet).set 0 (.exec t)).set 0 .taskDone).set 0 .checkFlag =
          s.workers
        rw [List.set_set, List.set_set, List.set_set]
        exact set_same _ 0 _ hw0
      have hw4 : s4.workers.get? 0 = some .checkFlag := by rw [hws4]; exact hw0
      obtain ⟨s', hrun, hq', hws', hk', hex', hu', hm', hp', hob', hst', hlo', hexc'⟩ :=
        ih s4 rfl hw4 hk (fun u hu => hok u (by simp [hu]))
      refine ⟨s', ?_, hq', by rw [hws', hws4], hk', ?_, ?_, hm', ?_, hob', hst', hlo', ?_⟩
      · show runSched p s (drainSched 0 (t :: rest)) = s'
        rw [drainSched, runSched_cons_some h1, runSched_cons_some h2,
          runSched_cons_some h3, runSched_cons_some h4]
        exact hrun
      · rw [hex']
        show (s.executed ++ [t.tid]) ++ rest.map Triple.tid =
          s.executed ++ (t :: rest).map Triple.tid
        simp
      · rw [hu']
        show s.unfinished_tasks - 1 - rest.length = s.unfinished_tasks - (t :: rest).length
        simp only [List.length_cons]
        omega
      · rw [hp']
        show s.pulls + 1 + rest.length = s.pulls + (t :: rest).length
        simp only [List.length_cons]
        omega
      · intro hall
        rw [hexc' (fun u hu => hall u (by simp [hu]))]
    | error f =>
      have hroe : p.run_over_exceptions = true := by
        rcases hok t (by simp) with h | h
        · rw [h] at hco
          exact absurd hco (by simp)
        · exact h
      have h3 := workerStep_exec_err (p := p) hw2 hco
      set s3 : PoolState :=
        { s2 with workers := s2.workers.set 0 .taskDone,
                  executed := s2.executed ++ [t.tid],
                  calls := s2.calls ++ [(t.tid, unpackArgs t.args, unpackKwargs t.kwargs)],
                  keep_running := p.run_over_exceptions,
                  log := s2.log ++ [.taskException f],
                  exceptions := s2.exceptions ++ [f],
                  produced := s2.produced ++ [f] }
        with hs3
      have hw3 : s3.workers.get? 0 = some .taskDone := get?_set_self _ 0 _ _ hw2
      have h4 := workerStep_taskDone (p := p) hw3
      set s4 : PoolState :=
        { s3 with unfinished_tasks := s3.unfinished_tasks - 1,
                  workers := s3.workers.set 0 .checkFlag }
        with hs4
      have hws4 : s4.workers = s.workers := by
        show (((s.workers.set 0 .tryGet).set 0 (.exec t)).set 0 .taskDone).set 0 .checkFlag =
          s.workers
        rw [List.set_set, List.set_set, List.set_set]
        exact set_same _ 0 _ hw0
      have hw4 : s4.workers.get? 0 = some .checkFlag := by rw [hws4]; exact hw0
      have hk4 : s4.keep_running = true := hroe
      obtain ⟨s', hrun, hq', hws', hk', hex', hu', hm', hp', hob', hst', hlo', hexc'⟩ :=
        ih s4 rfl hw4 hk4 (fun u hu => hok u (by simp [hu]))
      refine ⟨s', ?_, hq', by rw [hws', hws4], hk', ?_, ?_, hm', ?_, hob', hst', hlo', ?_⟩
      · show runSched p s (drainSched 0 (t :: rest)) = s'
        rw [drainSched, runSched_cons_some h1, runSched_cons_some h2,
          runSched_cons_some h3, runSched_cons_some h4]
        exact hrun
      · rw [hex']
        show (s.executed ++ [t.tid]) ++ rest.map Triple.tid =
          s.executed ++ (t :: rest).map Triple.tid
        simp
      · rw [hu']
        show s.unfinished_tasks - 1 - rest.length = s.unfinished_tasks - (t :: rest).length
        simp only [List.length_cons]
        omega
      · rw [hp']
        show s.pulls + 1 + rest.length = s.pulls + (t :: rest).length
        simp only [List.length_cons]
        omega
      · intro hall
        have := hall t (by simp)
        rw [this] at hco
        exact absurd hco (by simp)

/-! ## A schedule on which every idle worker exits -/

/-- Workers `a, a+1, ..., a+b-1`, each at the flag check with an empty
queue, exit in two steps each. -/
def exitSched : Nat → Nat → List Choice
  | _, 0 => []
  | a, b + 1 => .worker a :: .worker a :: exitSched (a + 1) b

theorem exits_run (p : Parallel) :
    ∀ (b a : Nat) (s : PoolState),
      s.workers = List.replicate a .exited ++ List.replicate b .checkFlag →
      s.queue = [] → s.keep_running = true →
      runSched p s (exitSched a b) =
        { s with workers := List.replicate (a + b) .exited } := by
  intro b
  induction b with
  | zero =>
    intro a s hw hq hk
    show s = { s with workers := List.replicate (a + 0) .exited }
    rw [Nat.add_zero]
    have hw' : s.workers = List.replicate a WState.exited := by simpa using hw
    rw [← hw']
  | succ b ihb =>
    intro a s hw hq hk
    have hw0 : s.workers.get? a = some .checkFlag := by
      rw [hw, List.replicate_succ]
      have := get?_append_len (List.replicate a WState.exited) WState.checkFlag
        (List.replicate b WState.checkFlag)
      simpa using this
    have h1 := workerStep_checkFlag_true (p := p) hw0 hk
    set s1 : PoolState := { s with workers := s.workers.set a .tryGet } with hs1
    have hw1 : s1.workers.get? a = some .tryGet := get?_set_self _ a _ _ hw0
    have h2 := workerStep_tryGet_nil (p := p) hw1 hq
    set s2 : PoolState := { s1 with workers := s1.workers.set a .exited } with hs2
    have hws2 : s2.workers = List.replicate (a + 1) .exited ++ List.replicate b .checkFlag := by
      show (s.workers.set a .tryGet).set a .exited = _
      rw [List.set_set, hw, List.replicate_succ]
      have := set_append_len (List.replicate a WState.exited) WState.checkFlag WState.exited
        (List.replicate b WState.checkFlag)
      simp only [List.length_replicate] at this
      rw [this, List.replicate_succ' ]
      simp
    have h3 := ihb (a + 1) s2 hws2 hq hk
    show runSched p s (exitSched a (b + 1)) = _
    rw [exitSched, runSched_cons_some h1, runSched_cons_some h2, h3]
    show { s with workers := List.replicate (a + 1 + b) .exited } =
      { s with workers := List.replicate (a + (b + 1)) .exited }
    rw [show a + 1 + b = a + (b + 1) by omega]

/-! ## Exactly-once execution at quiescence -/

theorem heldTids_nil_of_busy_zero {ws : List WState} (h : busyCount ws = 0) :
    heldTids ws = [] := by
  induction ws with
  | nil => rfl
  | cons a tl ih =>
    rw [busyCount, List.countP_cons] at h
    have h1 : tl.countP isBusy = 0 ∧ (if isBusy a then 1 else 0) = 0 := by omega
    have h2 := ih h1.1
    cases a with
    | exec t => simp [isBusy] at h1
    | checkFlag => simpa [heldTids, List.flatMap_cons, optTid] using h2
    | tryGet => simpa [heldTids, List.flatMap_cons, optTid] using h2
    | taskDone => simpa [heldTids, List.flatMap_cons, optTid] using h2
    | exited => simpa [heldTids, List.flatMap_cons, optTid] using h2

/-- The pending-task counter is zero only when every enqueued task has
been attempted (appears in `executed`) exactly once. -/
theorem pending_zero_attempted {p : Parallel} {ts : List Triple} {s : PoolState}
    (hr : Reach p (initState p ts) s) (hz : s.unfinished_tasks = 0) :
    s.executed.Perm (ts.map Triple.tid) := by
  have hi := (reach_all hr).1
  have h1 := hi.hunfin
  rw [hz] at h1
  have hqnil : s.queue = [] := List.length_eq_zero.mp (by omega)
  have hbusy : busyCount s.workers = 0 := by omega
  have hheld := heldTids_nil_of_busy_zero hbusy
  have hpulls : s.pulls = ts.length := by
    have h2 := hi.hq
    rw [hqnil] at h2
    have h3 : ts.length ≤ s.pulls := by
      by_contra hc
      have : ts.drop s.pulls ≠ [] := by
        intro hd
        rw [List.drop_eq_nil_iff] at hd
        omega
      exact this h2.symm
    have := hi.hple
    omega
  have hperm := hi.hperm
  rw [hheld, List.append_nil, hpulls, List.take_length] at hperm
  exact hperm

/-- In override mode every quiescent reachable run has attempted every
task exactly once (the flag never drops, so workers exit only on the
empty queue). -/
theorem terminal_attempted_over {p : Parallel} {ts : List Triple} {s : PoolState}
    (hroe : p.run_over_exceptions = true) (hW : 1 ≤ p.max_workers)
    (hr : Reach p (initState p ts) s) (ht : Terminal p s) :
    s.executed.Perm (ts.map Triple.tid) ∧ s.unfinished_tasks = 0 := by
  have hi := (reach_all hr).1
  have hflag := reach_flag_true hroe hr rfl
    (by intro hmem; exact absurd (List.eq_of_mem_replicate hmem) (by simp))
  have hex_all : ∀ w ∈ s.workers, w = .exited := by
    intro w hwm
    obtain ⟨n, hn⟩ := List.get?_of_mem hwm
    exact terminal_worker_exited ht hn
  have hne : s.workers ≠ [] := by
    intro hnil
    have := hi.hwlen
    rw [hnil] at this
    simp at this
    omega
  obtain ⟨w0, hw0⟩ := List.exists_mem_of_ne_nil s.workers hne
  have hqnil : s.queue = [] := hflag.2 ((hex_all w0 hw0) ▸ hw0)
  have hheld : heldTids s.workers = [] := heldTids_eq_nil_of_exited hex_all
  have hbusy : busyCount s.workers = 0 := busyCount_eq_zero_of_exited hex_all
  have hpulls : s.pulls = ts.length := by
    have h2 := hi.hq
    rw [hqnil] at h2
    have h3 : ts.length ≤ s.pulls := by
      by_contra hc
      have : ts.drop s.pulls ≠ [] := by
        intro hd
        rw [List.drop_eq_nil_iff] at hd
        omega
      exact this h2.symm
    have := hi.hple
    omega
  constructor
  · have hperm := hi.hperm
    rw [hheld, List.append_nil, hpulls, List.take_length] at hperm
    exact hperm
  · rw [hi.hunfin, hqnil, hbusy]
    rfl

/-! ## Schedules and reachability -/

theorem Reach.trans {p : Parallel} {a b c : PoolState}
    (h1 : Reach p a b) (h2 : Reach p b c) : Reach p a c := by
  induction h2 with
  | refl => exact h1
  | tail hr ch hst ih => exact Reach.tail ih ch hst

theorem reach_runSched (p : Parallel) (cs : List Choice) :
    ∀ s : PoolState, Reach p s (runSched p s cs) := by
  induction cs with
  | nil => exact fun s => Reach.refl s
  | cons c cs ih =>
    intro s
    cases hst : step p s c with
    | none =>
      show Reach p s (runSched p s (c :: cs))
      rw [show runSched p s (c :: cs) = runSched p s cs by simp [runSched, hst]]
      exact ih s
    | some s' =>
      rw [runSched_cons_some hst]
      exact (Reach.tail (Reach.refl s) c hst).trans (ih s')

theorem runSched_append (p : Parallel) (l1 l2 : List Choice) :
    ∀ s : PoolState, runSched p s (l1 ++ l2) = runSched p (runSched p s l1) l2 := by
  induction l1 with
  | nil => intro s; rfl
  | cons c cs ih =>
    intro s
    cases hst : step p s c with
    | none => simp [runSched, hst, ih]
    | some s' => simp [runSched, hst, ih]

theorem get?_replicate {α : Type _} (x : α) : ∀ {n i : Nat}, i < n →
    (List.replicate n x).get? i = some x := by
  intro n
  induction n with
  | zero => intro i h; omega
  | succ m ih =>
    intro i h
    cases i with
    | zero => rfl
    | succ k =>
      rw [List.replicate_succ]
      simpa using ih (by omega)

/-- If every enqueued triple's call succeeds, the input cannot be
shape-mismatched: a mismatch pads a `{}` into the callable slot and
that padded call raises a TypeError. -/
theorem shape_ok_of_all_ok {p : Parallel} {ts : List Triple}
    (hb : buildQueueOf p = Except.ok ts)
    (hok : ∀ t ∈ ts, callOutcome t = Except.ok ()) :
    ¬(p.funcs.length < p.args_list.length ∨ p.funcs.length < p.kwargs_list.length) := by
  intro hcon
  have hmax : p.funcs.length < max p.funcs.length (max p.args_list.length p.kwargs_list.length) := by
    rcases hcon with h | h
    · calc p.funcs.length < p.args_list.length := h
        _ ≤ max p.args_list.length p.kwargs_list.length := le_max_left _ _
        _ ≤ max p.funcs.length (max p.args_list.length p.kwargs_list.length) := le_max_right _ _
    · calc p.funcs.length < p.kwargs_list.length := h
        _ ≤ max p.args_list.length p.kwargs_list.length := le_max_right _ _
        _ ≤ max p.funcs.length (max p.args_list.length p.kwargs_list.length) := le_max_right _ _
  have hzs := izip_longest3_get? p.funcs p.args_list p.kwargs_list hmax
  have hfill : p.funcs.getD p.funcs.length FuncEntry.fillDict = FuncEntry.fillDict :=
    List.getD_eq_default _ _ (le_refl _)
  rw [hfill] at hzs
  obtain ⟨hlen, hget⟩ := enqueueTriples_ok_spec hb
  have hts := hget p.funcs.length FuncEntry.fillDict
    (p.args_list.getD p.funcs.length ArgsEntry.fillDict)
    (p.kwargs_list.getD p.funcs.length KwEntry.fillDict) hzs
  have hmem := List.get?_mem hts
  have := hok _ hmem
  simp [callOutcome] at this

/-- Once the caller thread has entered the supervisor loop, the shape
check has passed. -/
theorem reach_loop_shape {p : Parallel} {ts : List Triple} {s : PoolState}
    (hr : Reach p (initState p ts) s) :
    (s.main = .loopCheck ∨ s.main = .excCheck ∨ s.main = .progressStep) →
    ¬(p.funcs.length < p.args_list.length ∨ p.funcs.length < p.kwargs_list.length) := by
  induction hr with
  | refl =>
    intro hm
    rcases hm with hm | hm | hm <;> exact absurd hm (by simp [initState])
  | tail hr c h2 ih =>
    intro hm
    cases c with
    | worker i =>
      rcases workerStep_inv h2 with
        ⟨hw, rfl⟩ | ⟨hw, hqe, rfl⟩ | ⟨t, rest, hw, hqe, rfl⟩ |
        ⟨t, hw, hc, rfl⟩ | ⟨t, f, hw, hc, rfl⟩ | ⟨hw, rfl⟩ <;> exact ih hm
    | main now =>
      rcases mainStep_inv h2 with
        ⟨hm2, hlen, rfl⟩ | ⟨hm2, hlen, rfl⟩ | ⟨hm2, hu, rfl⟩ | ⟨hm2, hu, rfl⟩ |
        ⟨f, rest, hm2, he, rfl⟩ | ⟨hm2, he, rfl⟩ |
        ⟨interval, hm2, hoi, hgt, rfl⟩ | ⟨interval, hm2, hoi, hgt, rfl⟩ | ⟨hm2, hoi, rfl⟩ |
        ⟨propagating, f, rest, hm2, he, rfl⟩ | ⟨propagating, hm2, he, rfl⟩
      · rcases hm with hm | hm | hm <;> exact absurd hm (by simp)
      · exact hlen
      · exact ih (Or.inl hm2)
      · rcases hm with hm | hm | hm <;> exact absurd hm (by simp)
      · rcases hm with hm | hm | hm <;> exact absurd hm (by simp)
      · exact ih (Or.inr (Or.inl hm2))
      · exact ih (Or.inr (Or.inr hm2))
      · exact ih (Or.inr (Or.inr hm2))
      · exact ih (Or.inr (Or.inr hm2))
      · rcases hm with hm | hm | hm <;> exact absurd hm (by simp)
      · rcases hm with hm | hm | hm <;> exact absurd hm (by simp)

/-- On a shape-mismatched input the supervisor loop is never entered:
the caller thread goes from the shape check straight to the finally
block, and the final outcome is the shape error or a worker failure
popped there. -/
theorem reach_shape_bad {p : Parallel} {ts : List Triple} {s : PoolState}
    (hshape : p.funcs.length < p.args_list.length ∨ p.funcs.length < p.kwargs_list.length)
    (hr : Reach p (initState p ts) s) :
    s.main = .shapeCheck ∨ s.main = .finalize (some .shapeError) ∨
    (∃ f, s.main = .finalize (some (.taskFailure f))) ∨
    s.main = .finished .shapeError false ∨
    (∃ f j, s.main = .finished (.taskFailure f) j) := by
  induction hr with
  | refl => exact Or.inl rfl
  | tail hr c h2 ih =>
    cases c with
    | worker i =>
      rcases workerStep_inv h2 with
        ⟨hw, rfl⟩ | ⟨hw, hqe, rfl⟩ | ⟨t, rest, hw, hqe, rfl⟩ |
        ⟨t, hw, hc, rfl⟩ | ⟨t, f, hw, hc, rfl⟩ | ⟨hw, rfl⟩ <;> exact ih
    | main now =>
      rcases mainStep_inv h2 with
        ⟨hm2, hlen, rfl⟩ | ⟨hm2, hlen, rfl⟩ | ⟨hm2, hu, rfl⟩ | ⟨hm2, hu, rfl⟩ |
        ⟨f, rest, hm2, he, rfl⟩ | ⟨hm2, he, rfl⟩ |
        ⟨interval, hm2, hoi, hgt, rfl⟩ | ⟨interval, hm2, hoi, hgt, rfl⟩ | ⟨hm2, hoi, rfl⟩ |
        ⟨propagating, f, rest, hm2, he, rfl⟩ | ⟨propagating, hm2, he, rfl⟩
      · exact Or.inr (Or.inl rfl)
      · exact absurd hshape hlen
      · rcases ih with ih | ih | ⟨f, ih⟩ | ih | ⟨f, j, ih⟩ <;> rw [hm2] at ih <;> simp at ih
      · rcases ih with ih | ih | ⟨f, ih⟩ | ih | ⟨f, j, ih⟩ <;> rw [hm2] at ih <;> simp at ih
      · rcases ih with ih | ih | ⟨g, ih⟩ | ih | ⟨g, j, ih⟩ <;> rw [hm2] at ih <;> simp at ih
      · rcases ih with ih | ih | ⟨g, ih⟩ | ih | ⟨g, j, ih⟩ <;> rw [hm2] at ih <;> simp at ih
      · rcases ih with ih | ih | ⟨g, ih⟩ | ih | ⟨g, j, ih⟩ <;> rw [hm2] at ih <;> simp at ih
      · rcases ih with ih | ih | ⟨g, ih⟩ | ih | ⟨g, j, ih⟩ <;> rw [hm2] at ih <;> simp at ih
      · rcases ih with ih | ih | ⟨g, ih⟩ | ih | ⟨g, j, ih⟩ <;> rw [hm2] at ih <;> simp at ih
      · exact Or.inr (Or.inr (Or.inr (Or.inr ⟨f, true, rfl⟩)))
      · rcases ih with ih | ih | ⟨g, ih⟩ | ih | ⟨g, j, ih⟩
        · rw [hm2] at ih; simp at ih
        · rw [hm2] at ih
          injection ih with ih
          subst ih
          exact Or.inr (Or.inr (Or.inr (Or.inl rfl)))
        · rw [hm2] at ih
          injection ih with ih
          subst ih
          exact Or.inr (Or.inr (Or.inr (Or.inr ⟨g, false, rfl⟩)))
        · rw [hm2] at ih; simp at ih
        · rw [hm2] at ih; simp at ih

theorem mainStep_finalize_cons {p : Parallel} {s : PoolState} {now : Nat}
    {propagating : Option RunErr} {f : Failure} {rest : List Failure}
    (hm : s.main = .finalize propagating) (he : s.exceptions = f :: rest) :
    step p s (.main now) =
      some { s with exceptions := rest, keep_running := p.run_over_exceptions,
                    observed := s.observed ++ [f],
                    main := .finished (.taskFailure f) true } := by
  show mainStep p s now = _
  unfold mainStep
  rw [hm, he]

/-- A task callable that always returns. -/
def okBody : PyFunc := fun _ _ => Except.ok ()

/-- A task callable that always raises the given exception. -/
def failBody (f : Failure) : PyFunc := fun _ _ => Except.error f

/-! ## Claims -/

/-- Claim C3: the run-over-exceptions behavior is in effect if and only
if both the `run_over_exceptions` flag and the separate explicit
`i_know_what_im_doing` acknowledgment are passed as true to
`Parallel.__init__` (line 57); with only one of them the stored flag is
false, which is exactly the fail-fast setting every worker writes into
`keep_running` on a failure (line 87) and the caller writes at lines
130 and 151. -/
theorem c3_double_gate (funcs : List FuncEntry) (args_list : Option (List ArgsEntry))
    (kwargs_list : Option (List KwEntry)) (max_workers timeout : Nat)
    (roe iknow : Bool) (output_interval : Option Nat) :
    ((Parallel.init funcs args_list kwargs_list max_workers timeout roe iknow
        output_interval).run_over_exceptions = true ↔ roe = true ∧ iknow = true) ∧
    (Parallel.init funcs args_list kwargs_list max_workers timeout roe iknow
        output_interval).run_over_exceptions = (roe && iknow) := by
  constructor
  · simp [Parallel.init]
  · rfl

/-- Claim C7: at the finalization step of any run (whatever error is
propagating out of the supervisor try-block, including none), one more
non-blocking check of the failure channel decides everything: if it
finds a further record, the join loop over the workers runs (the `true`
join marker; each join bounded by `self.timeout` in the source) and
that further record is re-raised, replacing the propagating error; if
it finds nothing, the finalization does nothing further — no join (the
`false` marker) and the propagating error (or normal return) stands. -/
theorem c7_finalization (p : Parallel) (s : PoolState) (now : Nat)
    (propagating : Option RunErr) (hm : s.main = .finalize propagating) :
    (s.exceptions = [] →
      step p s (.main now) =
        some { s with main := .finished (propOutcome propagating) false } ∧
      joinedOf { s with main := .finished (propOutcome propagating) false } = false ∧
      resultOf { s with main := .finished (propOutcome propagating) false } =
        propOutcome propagating) ∧
    (∀ f rest, s.exceptions = f :: rest →
      step p s (.main now) =
        some { s with exceptions := rest, keep_running := p.run_over_exceptions,
                      observed := s.observed ++ [f],
                      main := .finished (.taskFailure f) true } ∧
      joinedOf { s with exceptions := rest, keep_running := p.run_over_exceptions,
                        observed := s.observed ++ [f],
                        main := .finished (.taskFailure f) true } = true ∧
      resultOf { s with exceptions := rest, keep_running := p.run_over_exceptions,
                        observed := s.observed ++ [f],
                        main := .finished (.taskFailure f) true } = .taskFailure f) := by
  constructor
  · intro he
    exact ⟨mainStep_finalize_nil now hm he, rfl, rfl⟩
  · intro f rest he
    exact ⟨mainStep_finalize_cons hm he, rfl, rfl⟩

def pC7 : Parallel :=
  { funcs := [], args_list := [], kwargs_list := [], max_workers := 1, timeout := 3600,
    run_over_exceptions := false, output_interval := none }

def fC7 : Failure := { kind := "ValueError", msg := "boom", trace := 7 }

def sC7 : PoolState :=
  { initState pC7 [] with main := .finalize (some .shapeError), exceptions := [fC7] }

theorem c7_finalization_witness :
    sC7.main = .finalize (some .shapeError) ∧
    ((sC7.exceptions = [] →
      step pC7 sC7 (.main 0) =
        some { sC7 with main := .finished (propOutcome (some .shapeError)) false } ∧
      joinedOf { sC7 with main := .finished (propOutcome (some .shapeError)) false } = false ∧
      resultOf { sC7 with main := .finished (propOutcome (some .shapeError)) false } =
        propOutcome (some .shapeError)) ∧
    (∀ f rest, sC7.exceptions = f :: rest →
      step pC7 sC7 (.main 0) =
        some { sC7 with exceptions := rest, keep_running := pC7.run_over_exceptions,
                        observed := sC7.observed ++ [f],
                        main := .finished (.taskFailure f) true } ∧
      joinedOf { sC7 with exceptions := rest, keep_running := pC7.run_over_exceptions,
                          observed := sC7.observed ++ [f],
                          main := .finished (.taskFailure f) true } = true ∧
      resultOf { sC7 with exceptions := rest, keep_running := pC7.run_over_exceptions,
                          observed := sC7.observed ++ [f],
                          main := .finished (.taskFailure f) true } = .taskFailure f)) :=
  ⟨rfl, c7_finalization pC7 sC7 0 (some .shapeError) rfl⟩

/-- Claim C9: whenever the caller thread reaches the progress check of
a supervisor-loop iteration with a progress interval configured and the
time since the last report exceeding it, it logs a progress message
carrying the elapsed time since the loop started, the number of tasks
still pending on the queue, and the total task count `len(self.funcs)`
(which equals the number of enqueued tasks, since the loop is only
reached once the shape check has passed). -/
theorem c9_progress (p : Parallel) (ts : List Triple) (s : PoolState) (now interval : Nat)
    (hb : buildQueueOf p = Except.ok ts)
    (hr : Reach p (initState p ts) s)
    (hm : s.main = .progressStep) (hoi : p.output_interval = some interval)
    (hgt : now - s.last_output_time > interval) :
    step p s (.main now) =
      some { s with log := s.log ++ [.progressMsg (now - s.start_time) s.queue.length
                      p.funcs.length],
                    last_output_time := now, main := .loopCheck } ∧
    ts.length = p.funcs.length := by
  constructor
  · show mainStep p s now = _
    unfold mainStep
    rw [hm]
    dsimp only
    rw [hoi]
    dsimp only
    rw [if_pos hgt]
  · have hshape := reach_loop_shape hr (Or.inr (Or.inr hm))
    obtain ⟨hlen, _⟩ := enqueueTriples_ok_spec hb
    rw [hlen, izip_longest3_length]
    push_neg at hshape
    exact Nat.max_eq_left (Nat.max_le.mpr ⟨by omega, by omega⟩)

def pC9 : Parallel :=
  { funcs := [.fn okBody], args_list := [], kwargs_list := [], max_workers := 1,
    timeout := 3600, run_over_exceptions := false, output_interval := some 1 }

def tsC9 : List Triple := [⟨0, .fn okBody, .fillDict, .fillDict⟩]

def sC9 : PoolState := runSched pC9 (initState pC9 tsC9) [.main 0, .main 0, .main 0]

theorem c9_progress_witness :
    buildQueueOf pC9 = Except.ok tsC9 ∧
    sC9.main = .progressStep ∧ pC9.output_interval = some 1 ∧
    5 - sC9.last_output_time > 1 ∧
    (step pC9 sC9 (.main 5) =
      some { sC9 with log := sC9.log ++ [.progressMsg (5 - sC9.start_time) sC9.queue.length
                        pC9.funcs.length],
                      last_output_time := 5, main := .loopCheck } ∧
      tsC9.length = pC9.funcs.length) :=
  ⟨rfl, rfl, rfl, by decide,
    c9_progress pC9 tsC9 sC9 5 1 rfl (reach_runSched pC9 [.main 0, .main 0, .main 0] _)
      rfl rfl (by decide)⟩

/-- Claim C4: if any entry of `args_list` is a bare string, the
ValueError of lines 104-106 is raised during enqueueing: on every
schedule, `run_threads` yields exactly the string-ValueError outcome
with zero worker threads started, an empty execution history and an
empty log — no task ever runs. -/
theorem c4_string_entry (p : Parallel) (sched : List Choice)
    (h : ∃ m, ArgsEntry.strEntry m ∈ p.args_list) :
    run_threads p sched =
      { outcome := .stringValueError strCheckMsg, workersStarted := 0,
        executed := [], joined := false, log := [] } := by
  obtain ⟨m, hm⟩ := h
  obtain ⟨n, hn⟩ := List.get?_of_mem hm
  have hnlt : n < p.args_list.length := length_pos_of_get? hn
  have hmax : n < max p.funcs.length (max p.args_list.length p.kwargs_list.length) := by
    have h1 : p.args_list.length ≤ max p.args_list.length p.kwargs_list.length :=
      le_max_left _ _
    have h2 : max p.args_list.length p.kwargs_list.length ≤
        max p.funcs.length (max p.args_list.length p.kwargs_list.length) := le_max_right _ _
    omega
  have hzs := izip_longest3_get? p.funcs p.args_list p.kwargs_list hmax
  have hgd : p.args_list.getD n ArgsEntry.fillDict = ArgsEntry.strEntry m := by
    rw [List.getD_eq_getElem?_getD, ← List.get?_eq_getElem?, hn]
    rfl
  rw [hgd] at hzs
  have herr : buildQueueOf p = Except.error strCheckMsg := by
    unfold buildQueueOf
    exact enqueueTriples_error_of_string
      ⟨p.funcs.getD n FuncEntry.fillDict, m, p.kwargs_list.getD n KwEntry.fillDict,
        List.get?_mem hzs⟩ 0
  unfold run_threads
  rw [herr]

def pC4 : Parallel :=
  { funcs := [.fn okBody], args_list := [ArgsEntry.strEntry "not-a-tuple"],
    kwargs_list := [], max_workers := 2, timeout := 3600,
    run_over_exceptions := false, output_interval := none }

theorem c4_string_entry_witness :
    (∃ m, ArgsEntry.strEntry m ∈ pC4.args_list) ∧
    run_threads pC4 [.worker 0, .main 0] =
      { outcome := .stringValueError strCheckMsg, workersStarted := 0,
        executed := [], joined := false, log := [] } :=
  ⟨⟨"not-a-tuple", by simp [pC4]⟩,
    c4_string_entry pC4 [.worker 0, .main 0] ⟨"not-a-tuple", by simp [pC4]⟩⟩

/-- Claim C8: the pairing of `funcs`, `args_list` and `kwargs_list` is
positional up to the longest of the three lists, shorter lists are
padded with the `{}` default, every padded triple is enqueued, and a
task whose `args`/`kwargs` entry is padding is called with no
positional/keyword arguments — both in the built queue and in the
recorded calls of any run. -/
theorem c8_padding (p : Parallel) (ts : List Triple)
    (hb : buildQueueOf p = Except.ok ts) :
    ts.length = max p.funcs.length (max p.args_list.length p.kwargs_list.length) ∧
    (∀ j, j < ts.length →
      ts.get? j = some ⟨j, p.funcs.getD j .fillDict, p.args_list.getD j .fillDict,
        p.kwargs_list.getD j .fillDict⟩) ∧
    (initState p ts).queue = ts ∧
    (∀ j t, ts.get? j = some t → p.args_list.length ≤ j → unpackArgs t.args = []) ∧
    (∀ j t, ts.get? j = some t → p.kwargs_list.length ≤ j → unpackKwargs t.kwargs = []) ∧
    (∀ s, Reach p (initState p ts) s → ∀ c ∈ s.calls,
      ∃ t, t ∈ ts ∧ c = (t.tid, unpackArgs t.args, unpackKwargs t.kwargs)) := by
  obtain ⟨hlen, hget⟩ := enqueueTriples_ok_spec hb
  have hlen' : ts.length = max p.funcs.length (max p.args_list.length p.kwargs_list.length) := by
    rw [hlen, izip_longest3_length]
  have hget' : ∀ j, j < ts.length →
      ts.get? j = some ⟨j, p.funcs.getD j .fillDict, p.args_list.getD j .fillDict,
        p.kwargs_list.getD j .fillDict⟩ := by
    intro j hj
    rw [hlen'] at hj
    have hzs := izip_longest3_get? p.funcs p.args_list p.kwargs_list hj
    have := hget j _ _ _ hzs
    simpa using this
  refine ⟨hlen', hget', rfl, ?_, ?_, ?_⟩
  · intro j t hj hge
    have hjlt : j < ts.length := length_pos_of_get? hj
    have := hget' j hjlt
    rw [this] at hj
    injection hj with hj
    rw [← hj]
    show unpackArgs (p.args_list.getD j ArgsEntry.fillDict) = []
    rw [List.getD_eq_default _ _ hge]
    rfl
  · intro j t hj hge
    have hjlt : j < ts.length := length_pos_of_get? hj
    have := hget' j hjlt
    rw [this] at hj
    injection hj with hj
    rw [← hj]
    show unpackKwargs (p.kwargs_list.getD j KwEntry.fillDict) = []
    rw [List.getD_eq_default _ _ hge]
    rfl
  · intro s hr c hc
    exact (reach_all hr).1.hcalls c hc

def pC8 : Parallel :=
  { funcs := [.fn okBody, .fn okBody, .fn okBody],
    args_list := [ArgsEntry.tup [Val.int 4]], kwargs_list := [],
    max_workers := 2, timeout := 3600, run_over_exceptions := false,
    output_interval := none }

def tsC8 : List Triple :=
  [⟨0, .fn okBody, .tup [Val.int 4], .fillDict⟩,
   ⟨1, .fn okBody, .fillDict, .fillDict⟩,
   ⟨2, .fn okBody, .fillDict, .fillDict⟩]

theorem c8_padding_witness :
    buildQueueOf pC8 = Except.ok tsC8 ∧
    (tsC8.length = max pC8.funcs.length (max pC8.args_list.length pC8.kwargs_list.length) ∧
    (∀ j, j < tsC8.length →
      tsC8.get? j = some ⟨j, pC8.funcs.getD j .fillDict, pC8.args_list.getD j .fillDict,
        pC8.kwargs_list.getD j .fillDict⟩) ∧
    (initState pC8 tsC8).queue = tsC8 ∧
    (∀ j t, tsC8.get? j = some t → pC8.args_list.length ≤ j → unpackArgs t.args = []) ∧
    (∀ j t, tsC8.get? j = some t → pC8.kwargs_list.length ≤ j → unpackKwargs t.kwargs = []) ∧
    (∀ s, Reach pC8 (initState pC8 tsC8) s → ∀ c ∈ s.calls,
      ∃ t, t ∈ tsC8 ∧ c = (t.tid, unpackArgs t.args, unpackKwargs t.kwargs))) :=
  ⟨rfl, c8_padding pC8 tsC8 rfl⟩

/-! ## The empty run (claim C10) -/

theorem terminal_of_exited_finished {p : Parallel} {s : PoolState}
    (hw : ∀ w ∈ s.workers, w = WState.exited)
    (hm : ∃ r j, s.main = .finished r j) : Terminal p s := by
  intro c
  cases c with
  | worker i =>
    show workerStep p s i = none
    cases hgi : s.workers.get? i with
    | none => unfold workerStep; rw [hgi]
    | some w =>
      have := hw w (List.get?_mem hgi)
      subst this
      unfold workerStep
      rw [hgi]
  | main now =>
    obtain ⟨r, j, hmj⟩ := hm
    show mainStep p s now = none
    unfold mainStep
    rw [hmj]

structure C10Inv (s : PoolState) : Prop where
  hq : s.queue = []
  hu : s.unfinished_tasks = 0
  hexc : s.exceptions = []
  hexe : s.executed = []
  hpro : s.produced = []
  hobs : s.observed = []
  hw : ∀ w ∈ s.workers, w = WState.checkFlag ∨ w = WState.tryGet ∨ w = WState.exited
  hm : s.main = .shapeCheck ∨ s.main = .loopCheck ∨ s.main = .finalize none ∨
    s.main = .finished .normal false

theorem c10Inv_step {p : Parallel} (hfun : p.funcs = []) (hargs : p.args_list = [])
    (hkw : p.kwargs_list = []) {s s' : PoolState} {c : Choice}
    (hi : C10Inv s) (h : step p s c = some s') : C10Inv s' := by
  obtain ⟨hq, hu, hexc, hexe, hpro, hobs, hw, hm⟩ := hi
  cases c with
  | worker i =>
    rcases workerStep_inv h with
      ⟨hwg, rfl⟩ | ⟨hwg, hqe, rfl⟩ | ⟨t, rest, hwg, hqe, rfl⟩ |
      ⟨t, hwg, hc, rfl⟩ | ⟨t, f, hwg, hc, rfl⟩ | ⟨hwg, rfl⟩
    · refine ⟨hq, hu, hexc, hexe, hpro, hobs, ?_, hm⟩
      intro w hwm
      rcases List.mem_or_eq_of_mem_set hwm with hwm | hwm
      · exact hw w hwm
      · cases hkr : s.keep_running <;> rw [hkr] at hwm <;> simp at hwm <;> simp [hwm]
    · refine ⟨hq, hu, hexc, hexe, hpro, hobs, ?_, hm⟩
      intro w hwm
      rcases List.mem_or_eq_of_mem_set hwm with hwm | hwm
      · exact hw w hwm
      · simp [hwm]
    · rw [hq] at hqe
      exact absurd hqe (by simp)
    · have := hw _ (List.get?_mem hwg)
      simp at this
    · have := hw _ (List.get?_mem hwg)
      simp at this
    · have := hw _ (List.get?_mem hwg)
      simp at this
  | main now =>
    rcases mainStep_inv h with
      ⟨hm2, hlen, rfl⟩ | ⟨hm2, hlen, rfl⟩ | ⟨hm2, hu2, rfl⟩ | ⟨hm2, hu2, rfl⟩ |
      ⟨f, rest, hm2, he, rfl⟩ | ⟨hm2, he, rfl⟩ |
      ⟨interval, hm2, hoi, hgt, rfl⟩ | ⟨interval, hm2, hoi, hgt, rfl⟩ | ⟨hm2, hoi, rfl⟩ |
      ⟨propagating, f, rest, hm2, he, rfl⟩ | ⟨propagating, hm2, he, rfl⟩
    · rw [hfun, hargs, hkw] at hlen
      simp at hlen
    · exact ⟨hq, hu, hexc, hexe, hpro, hobs, hw, Or.inr (Or.inl rfl)⟩
    · exact absurd hu hu2
    · exact ⟨hq, hu, hexc, hexe, hpro, hobs, hw, Or.inr (Or.inr (Or.inl rfl))⟩
    · rcases hm with hm | hm | hm | hm <;> rw [hm2] at hm <;> simp at hm
    · rcases hm with hm | hm | hm | hm <;> rw [hm2] at hm <;> simp at hm
    · rcases hm with hm | hm | hm | hm <;> rw [hm2] at hm <;> simp at hm
    · rcases hm with hm | hm | hm | hm <;> rw [hm2] at hm <;> simp at hm
    · rcases hm with hm | hm | hm | hm <;> rw [hm2] at hm <;> simp at hm
    · rw [hexc] at he
      exact absurd he (by simp)
    · have hpn : propagating = none := by
        rcases hm with hm | hm | hm | hm <;> rw [hm2] at hm
        · simp at hm
        · simp at hm
        · exact MState.finalize.inj hm
        · simp at hm
      subst hpn
      exact ⟨hq, hu, hexc, hexe, hpro, hobs, hw, Or.inr (Or.inr (Or.inr rfl))⟩

theorem c10Inv_reach {p : Parallel} (hfun : p.funcs = []) (hargs : p.args_list = [])
    (hkw : p.kwargs_list = []) {s : PoolState}
    (hr : Reach p (initState p []) s) : C10Inv s := by
  induction hr with
  | refl =>
    refine ⟨rfl, rfl, rfl, rfl, rfl, rfl, ?_, Or.inl rfl⟩
    intro w hwm
    have := List.eq_of_mem_replicate hwm
    simp [this]
  | tail hr c h2 ih => exact c10Inv_step hfun hargs hkw ih h2

/-- The concrete quiescent final state of the empty run on the
schedule where every worker exits and the caller then runs to
completion. -/
theorem c10_final_state {p : Parallel} (hfun : p.funcs = []) (hargs : p.args_list = [])
    (hkw : p.kwargs_list = []) :
    runSched p (initState p []) (exitSched 0 p.max_workers ++ [.main 0, .main 0, .main 0]) =
      { initState p [] with workers := List.replicate (0 + p.max_workers) .exited,
                            main := .finished .normal false,
                            start_time := 0, last_output_time := 0 } := by
  rw [runSched_append]
  have hex := exits_run p p.max_workers 0 (initState p []) (by simp [initState]) rfl rfl
  rw [hex]
  set s1 : PoolState :=
    { initState p [] with workers := List.replicate (0 + p.max_workers) .exited } with hs1
  have hstep1 := mainStep_shape_ok (p := p) (s := s1) 0 rfl
    (by rw [hfun, hargs, hkw]; simp)
  set s2 : PoolState :=
    { s1 with main := .loopCheck, start_time := 0, last_output_time := 0 } with hs2
  have hstep2 := mainStep_loopCheck_zero (p := p) (s := s2) 0 rfl rfl
  set s3 : PoolState := { s2 with main := .finalize none } with hs3
  have hstep3 := mainStep_finalize_nil (p := p) (s := s3) 0 rfl rfl
  show runSched p s1 [Choice.main 0, Choice.main 0, Choice.main 0] = _
  rw [runSched_cons_some hstep1]
  show runSched p s2 [Choice.main 0, Choice.main 0] = _
  rw [runSched_cons_some hstep2]
  show runSched p s3 [Choice.main 0] = _
  rw [runSched_cons_some hstep3]
  rfl

/-- Claim C10: with an empty `funcs` and absent argument lists, the
enqueue phase builds an empty queue, `max_workers` worker threads are
started anyway, each worker can only check the flag, see the empty
queue, and exit; the supervisor loop body (exception check, progress)
never executes, nothing is ever executed, produced, observed or logged
as a failure, a finished run is a normal return, and a schedule exists
on which the whole run terminates normally with every worker exited. -/
theorem c10_empty_funcs (p : Parallel) (hfun : p.funcs = []) (hargs : p.args_list = [])
    (hkw : p.kwargs_list = []) :
    buildQueueOf p = Except.ok [] ∧
    (initState p []).workers = List.replicate p.max_workers .checkFlag ∧
    (∀ s, Reach p (initState p []) s →
      s.executed = [] ∧ s.produced = [] ∧ s.observed = [] ∧
      s.main ≠ .excCheck ∧ s.main ≠ .progressStep ∧
      (∀ r j, s.main = .finished r j → r = .normal ∧ j = false) ∧
      (∀ i, s.workers.get? i = some .tryGet →
        step p s (.worker i) = some { s with workers := s.workers.set i .exited })) ∧
    (1 ≤ p.max_workers → ∃ sched s', runSched p (initState p []) sched = s' ∧
      Terminal p s' ∧ resultOf s' = .normal ∧ (∀ w ∈ s'.workers, w = .exited)) := by
  refine ⟨?_, rfl, ?_, ?_⟩
  · unfold buildQueueOf
    rw [hfun, hargs, hkw]
    rfl
  · intro s hr
    have hi := c10Inv_reach hfun hargs hkw hr
    refine ⟨hi.hexe, hi.hpro, hi.hobs, ?_, ?_, ?_, ?_⟩
    · intro hmx
      rcases hi.hm with hm | hm | hm | hm <;> rw [hmx] at hm <;> simp at hm
    · intro hmx
      rcases hi.hm with hm | hm | hm | hm <;> rw [hmx] at hm <;> simp at hm
    · intro r j hmx
      rcases hi.hm with hm | hm | hm | hm <;> rw [hmx] at hm
      · simp at hm
      · simp at hm
      · simp at hm
      · have h1 : MState.finished r j = MState.finished RunOutcome.normal false := hm
        injection h1 with h1 h2
        exact ⟨h1, h2⟩
    · intro i hwg
      exact workerStep_tryGet_nil hwg hi.hq
  · intro hW
    refine ⟨exitSched 0 p.max_workers ++ [.main 0, .main 0, .main 0], _, rfl, ?_, ?_, ?_⟩
    · rw [c10_final_state hfun hargs hkw]
      refine terminal_of_exited_finished ?_ ⟨.normal, false, rfl⟩
      intro w hwm
      exact List.eq_of_mem_replicate hwm
    · rw [c10_final_state hfun hargs hkw]
      rfl
    · rw [c10_final_state hfun hargs hkw]
      intro w hwm
      exact List.eq_of_mem_replicate hwm

def pC10 : Parallel :=
  { funcs := [], args_list := [], kwargs_list := [], max_workers := 4, timeout := 3600,
    run_over_exceptions := false, output_interval := none }

theorem c10_empty_funcs_witness :
    pC10.funcs = [] ∧ pC10.args_list = [] ∧ pC10.kwargs_list = [] ∧
    (buildQueueOf pC10 = Except.ok [] ∧
    (initState pC10 []).workers = List.replicate pC10.max_workers .checkFlag ∧
    (∀ s, Reach pC10 (initState pC10 []) s →
      s.executed = [] ∧ s.produced = [] ∧ s.observed = [] ∧
      s.main ≠ .excCheck ∧ s.main ≠ .progressStep ∧
      (∀ r j, s.main = .finished r j → r = .normal ∧ j = false) ∧
      (∀ i, s.workers.get? i = some .tryGet →
        step pC10 s (.worker i) = some { s with workers := s.workers.set i .exited })) ∧
    (1 ≤ pC10.max_workers → ∃ sched s', runSched pC10 (initState pC10 []) sched = s' ∧
      Terminal pC10 s' ∧ resultOf s' = .normal ∧ (∀ w ∈ s'.workers, w = .exited))) :=
  ⟨rfl, rfl, rfl, c10_empty_funcs pC10 rfl rfl rfl⟩

/-- Claim C2: on failure-free inputs every enqueued task is attempted
exactly once, for any worker count from 1 up: a task is removed from
the queue before execution and completed only after handling (built
into the worker transitions and the `hunfin` counter invariant), no two
workers ever receive the same task (the execution-plus-held history is
duplicate-free), the pending count reaches zero only when every
enqueued task has been attempted exactly once, and a schedule exists
that drives the pending count to zero with every task attempted exactly
once and a normal return. -/
theorem c2_exactly_once (p : Parallel) (ts : List Triple)
    (hb : buildQueueOf p = Except.ok ts)
    (hok : ∀ t ∈ ts, callOutcome t = Except.ok ())
    (hW : 1 ≤ p.max_workers) :
    (∀ s, Reach p (initState p ts) s →
      (s.executed ++ heldTids s.workers).Nodup ∧
      s.unfinished_tasks = s.queue.length + busyCount s.workers ∧
      (s.unfinished_tasks = 0 → s.executed.Perm (ts.map Triple.tid))) ∧
    (∃ sched s', runSched p (initState p ts) sched = s' ∧
      s'.unfinished_tasks = 0 ∧ s'.executed = ts.map Triple.tid ∧
      resultOf s' = .normal) := by
  have hnd : (ts.map Triple.tid).Nodup := by
    rw [enqueueTriples_map_tid hb]
    exact List.nodup_range' 0 _
  constructor
  · intro s hr
    have hi := (reach_all hr).1
    refine ⟨?_, hi.hunfin, fun hz => pending_zero_attempted hr hz⟩
    have hsub : ((ts.map Triple.tid).take s.pulls).Nodup :=
      hnd.sublist (List.take_sublist _ _)
    have hsub2 : ((ts.take s.pulls).map Triple.tid).Nodup := by
      rw [List.map_take]
      exact hsub
    exact (hi.hperm.nodup_iff).mpr hsub2
  · have hshape := shape_ok_of_all_ok hb hok
    have hstep1 := mainStep_shape_ok (p := p) (s := initState p ts) 0 rfl hshape
    set s1 : PoolState :=
      { initState p ts with main := .loopCheck, start_time := 0, last_output_time := 0 }
      with hs1
    have hw0 : s1.workers.get? 0 = some .checkFlag := get?_replicate _ hW
    obtain ⟨s2, hrun2, hq2, hws2, hk2, hex2, hu2, hm2, hp2, hob2, hst2, hlo2, hexc2⟩ :=
      drain_run p ts s1 rfl hw0 rfl (fun t ht => Or.inl (hok t ht))
    have hu2' : s2.unfinished_tasks = 0 := by
      rw [hu2]
      show ts.length - ts.length = 0
      omega
    have hexc2' : s2.exceptions = [] := hexc2 hok
    have hm2' : s2.main = .loopCheck := hm2
    have hstep3 := mainStep_loopCheck_zero (p := p) (s := s2) 0 hm2' hu2'
    set s3 : PoolState := { s2 with main := .finalize none } with hs3
    have hstep4 := mainStep_finalize_nil (p := p) (s := s3) 0 rfl hexc2'
    refine ⟨[Choice.main 0] ++ drainSched 0 ts ++ [Choice.main 0] ++ [Choice.main 0],
      _, rfl, ?_⟩
    rw [runSched_append, runSched_append, runSched_append]
    rw [show runSched p (initState p ts) [Choice.main 0] = s1 by
      rw [runSched_cons_some hstep1]; rfl]
    rw [hrun2]
    rw [show runSched p s2 [Choice.main 0] = s3 by rw [runSched_cons_some hstep3]; rfl]
    rw [show runSched p s3 [Choice.main 0] =
      { s3 with main := .finished (propOutcome none) false } by
      rw [runSched_cons_some hstep4]; rfl]
    refine ⟨hu2', ?_, rfl⟩
    show s2.executed = ts.map Triple.tid
    rw [hex2]
    rfl

def pC2 : Parallel :=
  { funcs := [.fn okBody, .fn okBody, .fn okBody],
    args_list := [ArgsEntry.tup [Val.int 1]], kwargs_list := [],
    max_workers := 2, timeout := 3600, run_over_exceptions := false,
    output_interval := none }

def tsC2 : List Triple :=
  [⟨0, .fn okBody, .tup [Val.int 1], .fillDict⟩,
   ⟨1, .fn okBody, .fillDict, .fillDict⟩,
   ⟨2, .fn okBody, .fillDict, .fillDict⟩]

theorem c2_exactly_once_witness :
    buildQueueOf pC2 = Except.ok tsC2 ∧
    (∀ t ∈ tsC2, callOutcome t = Except.ok ()) ∧ 1 ≤ pC2.max_workers ∧
    ((∀ s, Reach pC2 (initState pC2 tsC2) s →
      (s.executed ++ heldTids s.workers).Nodup ∧
      s.unfinished_tasks = s.queue.length + busyCount s.workers ∧
      (s.unfinished_tasks = 0 → s.executed.Perm (tsC2.map Triple.tid))) ∧
    (∃ sched s', runSched pC2 (initState pC2 tsC2) sched = s' ∧
      s'.unfinished_tasks = 0 ∧ s'.executed = tsC2.map Triple.tid ∧
      resultOf s' = .normal)) := by
  have hok : ∀ t ∈ tsC2, callOutcome t = Except.ok () := by
    intro t ht
    rcases List.mem_cons.mp ht with h | ht
    · rw [h]; rfl
    rcases List.mem_cons.mp ht with h | ht
    · rw [h]; rfl
    rcases List.mem_cons.mp ht with h | ht
    · rw [h]; rfl
    · exact absurd ht (by simp)
  exact ⟨rfl, hok, by decide, c2_exactly_once pC2 tsC2 rfl hok (by decide)⟩

/-- Claim C6: in the double-gated override mode a task failure does not
stop the pool: the shared `keep_running` flag stays true in every
reachable state, a failing call pushes the verbatim failure record onto
the failure channel and logs it while still marking the task done, the
exception log always matches the produced-failure history, every
quiescent run (with at least one worker) has attempted all tasks, and a
schedule exists on which all tasks are attempted even though some
fail. -/
theorem c6_override (p : Parallel) (ts : List Triple)
    (hb : buildQueueOf p = Except.ok ts)
    (hroe : p.run_over_exceptions = true) :
    (∀ s, Reach p (initState p ts) s → s.keep_running = true) ∧
    (∀ s i t f, Reach p (initState p ts) s →
      s.workers.get? i = some (.exec t) → callOutcome t = Except.error f →
      ∃ s', step p s (.worker i) = some s' ∧ s'.keep_running = true ∧
        s'.exceptions = s.exceptions ++ [f] ∧ s'.log = s.log ++ [.taskException f] ∧
        s'.executed = s.executed ++ [t.tid]) ∧
    (∀ s, Reach p (initState p ts) s → loggedFailures s.log = s.produced) ∧
    (1 ≤ p.max_workers → ∀ s, Reach p (initState p ts) s → Terminal p s →
      s.executed.Perm (ts.map Triple.tid) ∧ s.unfinished_tasks = 0) ∧
    (1 ≤ p.max_workers → ∃ sched s', runSched p (initState p ts) sched = s' ∧
      s'.executed = ts.map Triple.tid) := by
  have hinit_ex : WState.exited ∈ (initState p ts).workers → (initState p ts).queue = [] := by
    intro hmem
    exact absurd (List.eq_of_mem_replicate hmem) (by simp)
  refine ⟨?_, ?_, ?_, ?_, ?_⟩
  · intro s hr
    exact (reach_flag_true hroe hr rfl hinit_ex).1
  · intro s i t f hr hw hc
    refine ⟨_, workerStep_exec_err hw hc, ?_, rfl, rfl, rfl⟩
    exact hroe
  · intro s hr
    exact (reach_all hr).1.hlogf
  · intro hW s hr ht
    exact terminal_attempted_over hroe hW hr ht
  · intro hW
    have hw0 : (initState p ts).workers.get? 0 = some .checkFlag := get?_replicate _ hW
    obtain ⟨s', hrun, hq', hws', hk', hex', hu', hm', hp', hob', hst', hlo', hexc'⟩ :=
      drain_run p ts (initState p ts) rfl hw0 rfl (fun t ht => Or.inr hroe)
    refine ⟨drainSched 0 ts, s', hrun, ?_⟩
    rw [hex']
    rfl

def fC6 : Failure := { kind := "RuntimeError", msg := "task two failed", trace := 6 }

def pC6 : Parallel :=
  { funcs := [.fn okBody, .fn (failBody fC6), .fn okBody, .fn okBody, .fn okBody],
    args_list := [], kwargs_list := [], max_workers := 2, timeout := 3600,
    run_over_exceptions := true, output_interval := none }

def tsC6 : List Triple :=
  [⟨0, .fn okBody, .fillDict, .fillDict⟩,
   ⟨1, .fn (failBody fC6), .fillDict, .fillDict⟩,
   ⟨2, .fn okBody, .fillDict, .fillDict⟩,
   ⟨3, .fn okBody, .fillDict, .fillDict⟩,
   ⟨4, .fn okBody, .fillDict, .fillDict⟩]

theorem c6_override_witness :
    buildQueueOf pC6 = Except.ok tsC6 ∧ pC6.run_over_exceptions = true ∧
    ((∀ s, Reach pC6 (initState pC6 tsC6) s → s.keep_running = true) ∧
    (∀ s i t f, Reach pC6 (initState pC6 tsC6) s →
      s.workers.get? i = some (.exec t) → callOutcome t = Except.error f →
      ∃ s', step pC6 s (.worker i) = some s' ∧ s'.keep_running = true ∧
        s'.exceptions = s.exceptions ++ [f] ∧ s'.log = s.log ++ [.taskException f] ∧
        s'.executed = s.executed ++ [t.tid]) ∧
    (∀ s, Reach pC6 (initState pC6 tsC6) s → loggedFailures s.log = s.produced) ∧
    (1 ≤ pC6.max_workers → ∀ s, Reach pC6 (initState pC6 tsC6) s → Terminal pC6 s →
      s.executed.Perm (tsC6.map Triple.tid) ∧ s.unfinished_tasks = 0) ∧
    (1 ≤ pC6.max_workers → ∃ sched s', runSched pC6 (initState pC6 tsC6) sched = s' ∧
      s'.executed = tsC6.map Triple.tid)) :=
  ⟨rfl, rfl, c6_override pC6 tsC6 rfl rfl⟩

def pC5 : Parallel :=
  { funcs := [], args_list := [ArgsEntry.tup []], kwargs_list := [], max_workers := 1,
    timeout := 3600, run_over_exceptions := false, output_interval := none }

def tsC5 : List Triple := [⟨0, .fillDict, .tup [], .fillDict⟩]

def schedC5 : List Choice := [.worker 0, .worker 0, .worker 0, .worker 0, .main 0, .main 0]

/-- Counterexample to claim C5 as stated: on a shape-mismatched input
(`funcs` shorter than `args_list`), the shape-mismatch error does not
always surface to the caller.  The worker pulls the padded triple whose
callable slot is the `{}` fill before the caller reaches the shape
check, the resulting TypeError is queued, and the `finally` block then
re-raises that TypeError, replacing the shape ValueError — so the run
raises the TypeError (and a padded non-callable task really executed). -/
theorem c5_counterexample :
    buildQueueOf pC5 = Except.ok tsC5 ∧
    pC5.funcs.length < pC5.args_list.length ∧
    (run_threads pC5 schedC5).outcome = .taskFailure dict_call_failure ∧
    (run_threads pC5 schedC5).outcome ≠ .shapeError ∧
    (run_threads pC5 schedC5).executed = [0] :=
  ⟨rfl, by decide, rfl, by decide, rfl⟩

/-- Claim C5 (amended): on every input where `funcs` is shorter than
`args_list` or `kwargs_list`, the run call never returns normally, and
the shape check happens only after every padded triple has been
enqueued and the worker threads have been started (the machine starts
at the shape check with the full queue and all workers running); every
finished outcome is the shape-mismatch error unless the finalization
check finds a worker failure record first (for instance from executing
a padded non-callable triple), which then takes precedence. -/
theorem c5_shape_mismatch (p : Parallel) (sched : List Choice)
    (hshape : p.funcs.length < p.args_list.length ∨ p.funcs.length < p.kwargs_list.length) :
    (run_threads p sched).outcome ≠ .normal ∧
    (∀ ts, buildQueueOf p = Except.ok ts →
      (initState p ts).queue = ts ∧ (initState p ts).workers.length = p.max_workers ∧
      (initState p ts).main = .shapeCheck ∧
      (∀ s, Reach p (initState p ts) s →
        (∀ j, s.main ≠ .finished .normal j) ∧
        (∀ r j, s.main = .finished r j →
          r = .shapeError ∨ ∃ f, r = .taskFailure f ∧ IsBodyFailure ts f))) := by
  constructor
  · unfold run_threads
    cases hbq : buildQueueOf p with
    | error m => simp
    | ok ts =>
      have hr := reach_runSched p sched (initState p ts)
      have hbad := reach_shape_bad hshape hr
      show resultOf (runSched p (initState p ts) sched) ≠ RunOutcome.normal
      intro hcon
      unfold resultOf at hcon
      rcases hbad with hb1 | hb1 | ⟨f, hb1⟩ | hb1 | ⟨f, j, hb1⟩ <;>
        rw [hb1] at hcon <;> simp at hcon
  · intro ts hbq
    refine ⟨rfl, by simp [initState], rfl, ?_⟩
    intro s hr
    have hbad := reach_shape_bad hshape hr
    have hi := (reach_all hr).1
    constructor
    · intro j hcon
      rcases hbad with hb | hb | ⟨f, hb⟩ | hb | ⟨f, j', hb⟩ <;> rw [hcon] at hb <;> simp at hb
    · intro r j hm
      rcases hbad with hb | hb | ⟨f, hb⟩ | hb | ⟨f, j', hb⟩ <;> rw [hm] at hb
      · simp at hb
      · simp at hb
      · simp at hb
      · injection hb with h1 h2
        exact Or.inl h1
      · injection hb with h1 h2
        refine Or.inr ⟨f, h1, ?_⟩
        exact hi.hres f j (by rw [hm, h1])

theorem c5_shape_mismatch_witness :
    (pC5.funcs.length < pC5.args_list.length ∨ pC5.funcs.length < pC5.kwargs_list.length) ∧
    ((run_threads pC5 schedC5).outcome ≠ .normal ∧
    (∀ ts, buildQueueOf pC5 = Except.ok ts →
      (initState pC5 ts).queue = ts ∧ (initState pC5 ts).workers.length = pC5.max_workers ∧
      (initState pC5 ts).main = .shapeCheck ∧
      (∀ s, Reach pC5 (initState pC5 ts) s →
        (∀ j, s.main ≠ .finished .normal j) ∧
        (∀ r j, s.main = .finished r j →
          r = .shapeError ∨ ∃ f, r = .taskFailure f ∧ IsBodyFailure ts f)))) :=
  ⟨Or.inl (by decide), c5_shape_mismatch pC5 schedC5 (Or.inl (by decide))⟩

/-- Whatever `run_threads` finishes with is one of the three raisable
outcomes: a normal return, the shape `ValueError`, or a task failure
re-raised from the exception queue. -/
theorem reach_finished_outcomes {p : Parallel} {ts : List Triple} {s : PoolState}
    (hr : Reach p (initState p ts) s) :
    ∀ r j, s.main = .finished r j →
      r = .normal ∨ r = .shapeError ∨ ∃ f, r = .taskFailure f := by
  induction hr with
  | refl =>
    intro r j hm
    simp [initState] at hm
  | tail hr c h2 ih =>
    cases c with
    | worker i =>
      rcases workerStep_inv h2 with
        ⟨hw, rfl⟩ | ⟨hw, hqe, rfl⟩ | ⟨t, rest, hw, hqe, rfl⟩ |
        ⟨t, hw, hc, rfl⟩ | ⟨t, f, hw, hc, rfl⟩ | ⟨hw, rfl⟩ <;> exact ih
    | main now =>
      rcases mainStep_inv h2 with
        ⟨hm2, hlen, rfl⟩ | ⟨hm2, hlen, rfl⟩ | ⟨hm2, hu, rfl⟩ | ⟨hm2, hu, rfl⟩ |
        ⟨f, rest, hm2, he, rfl⟩ | ⟨hm2, he, rfl⟩ |
        ⟨interval, hm2, hoi, hgt, rfl⟩ | ⟨interval, hm2, hoi, hgt, rfl⟩ | ⟨hm2, hoi, rfl⟩ |
        ⟨propagating, f, rest, hm2, he, rfl⟩ | ⟨propagating, hm2, he, rfl⟩
      · intro r j hm
        exact absurd hm (by simp)
      · intro r j hm
        exact absurd hm (by simp)
      · intro r j hm
        exact absurd hm (by simp)
      · intro r j hm
        exact absurd hm (by simp)
      · intro r j hm
        exact absurd hm (by simp)
      · intro r j hm
        exact absurd hm (by simp)
      · intro r j hm
        exact absurd hm (by simp)
      · intro r j hm
        exact absurd hm (by simp)
      · intro r j hm
        exact absurd hm (by simp)
      · intro r j hm
        have hx : MState.finished (.taskFailure f) true = .finished r j := hm
        injection hx with h1 h2
        exact Or.inr (Or.inr ⟨f, h1.symm⟩)
      · intro r j hm
        have hx : MState.finished (propOutcome propagating) false = .finished r j := hm
        injection hx with h1 h2
        cases propagating with
        | none => exact Or.inl h1.symm
        | some e =>
          cases e with
          | shapeError => exact Or.inr (Or.inl h1.symm)
          | taskFailure g => exact Or.inr (Or.inr ⟨g, h1.symm⟩)

/-- On a shape-valid input (funcs at least as long as both argument
lists) the shape `ValueError` of lines 115-121 never arises: the caller
thread never propagates it into the `finally` block and never finishes
with it. -/
theorem reach_shape_good {p : Parallel} {ts : List Triple} {s : PoolState}
    (hshape : ¬(p.funcs.length < p.args_list.length ∨ p.funcs.length < p.kwargs_list.length))
    (hr : Reach p (initState p ts) s) :
    s.main ≠ .finalize (some .shapeError) ∧ ∀ j, s.main ≠ .finished .shapeError j := by
  induction hr with
  | refl => exact ⟨by simp [initState], fun j => by simp [initState]⟩
  | tail hr c h2 ih =>
    cases c with
    | worker i =>
      rcases workerStep_inv h2 with
        ⟨hw, rfl⟩ | ⟨hw, hqe, rfl⟩ | ⟨t, rest, hw, hqe, rfl⟩ |
        ⟨t, hw, hc, rfl⟩ | ⟨t, f, hw, hc, rfl⟩ | ⟨hw, rfl⟩ <;> exact ih
    | main now =>
      rcases mainStep_inv h2 with
        ⟨hm2, hlen, rfl⟩ | ⟨hm2, hlen, rfl⟩ | ⟨hm2, hu, rfl⟩ | ⟨hm2, hu, rfl⟩ |
        ⟨f, rest, hm2, he, rfl⟩ | ⟨hm2, he, rfl⟩ |
        ⟨interval, hm2, hoi, hgt, rfl⟩ | ⟨interval, hm2, hoi, hgt, rfl⟩ | ⟨hm2, hoi, rfl⟩ |
        ⟨propagating, f, rest, hm2, he, rfl⟩ | ⟨propagating, hm2, he, rfl⟩
      · exact absurd hlen hshape
      · exact ⟨by simp, fun j => by simp⟩
      · exact ⟨by simp, fun j => by simp⟩
      · exact ⟨by simp, fun j => by simp⟩
      · exact ⟨by simp, fun j => by simp⟩
      · exact ⟨by simp, fun j => by simp⟩
      · exact ⟨by simp, fun j => by simp⟩
      · exact ⟨by simp, fun j => by simp⟩
      · exact ⟨by simp, fun j => by simp⟩
      · exact ⟨by simp, fun j => by simp⟩
      · refine ⟨by simp, ?_⟩
        intro j hx
        have hx2 : MState.finished (propOutcome propagating) false =
            .finished .shapeError j := hx
        injection hx2 with h1 h2
        cases propagating with
        | none => exact absurd h1 (by simp [propOutcome])
        | some e =>
          cases e with
          | shapeError => exact ih.1 hm2
          | taskFailure g => exact absurd h1 (by simp [propOutcome])

def f1C1 : Failure := { kind := "ValueError", msg := "boom-first", trace := 1 }

def f2C1 : Failure := { kind := "ValueError", msg := "boom-second", trace := 2 }

def pC1 : Parallel :=
  { funcs := [.fn (failBody f1C1), .fn (failBody f2C1), .fn okBody],
    args_list := [], kwargs_list := [], max_workers := 3, timeout := 3600,
    run_over_exceptions := false, output_interval := none }

def tsC1 : List Triple :=
  [⟨0, .fn (failBody f1C1), .fillDict, .fillDict⟩,
   ⟨1, .fn (failBody f2C1), .fillDict, .fillDict⟩,
   ⟨2, .fn okBody, .fillDict, .fillDict⟩]

/-- Schedule prefix: the three workers pass their flag checks, workers 0
and 1 pull and run the two failing tasks, and the caller runs the shape
check, the loop check, and the exception check that pops (observes) the
first failure record. -/
def schedC1a : List Choice :=
  [.worker 0, .worker 1, .worker 2, .worker 0, .worker 1, .worker 0, .worker 1,
   .main 0, .main 0, .main 0]

/-- Schedule suffix: worker 2, already past its flag check, pulls and
runs the third task after the failure was observed; the finalization
check then pops the second failure record and re-raises it. -/
def schedC1b : List Choice := [.worker 2, .worker 2, .main 0]

def sMidC1 : PoolState := runSched pC1 (initState pC1 tsC1) schedC1a

def sFinC1 : PoolState := runSched pC1 sMidC1 schedC1b

/-- Counterexample to claim C1 as stated, in default fail-fast mode.
At the intermediate state the first failure has been observed (dequeued
by the supervisor loop) and only tasks 0 and 1 have begun execution;
afterwards task 2 still begins (and finishes) execution, and the run
call finishes by re-raising the `finally` block's further record — the
second failure, not the first observed one. -/
theorem c1_counterexample :
    buildQueueOf pC1 = Except.ok tsC1 ∧
    pC1.run_over_exceptions = false ∧
    sMidC1.observed = [f1C1] ∧
    sMidC1.executed = [0, 1] ∧
    sFinC1.executed = [0, 1, 2] ∧
    sFinC1.observed = [f1C1, f2C1] ∧
    sFinC1.main = .finished (.taskFailure f2C1) true ∧
    f2C1 ≠ f1C1 :=
  ⟨rfl, rfl, rfl, rfl, rfl, rfl, rfl, by decide⟩

/-- Claim C1 (amended): in default fail-fast mode, on a shape-valid
input (funcs at least as long as both argument lists), whenever the run
call finishes after some task's callable raised — that is, finishes with
a nonempty failure history — it raises a task failure that is verbatim
what some task's callable raised (same kind, message and originating
trace, not wrapped), and it is the last failure record the caller
observed: the first observed one unless the finalization check found a
further record (so when no further record was found — the `false` join
marker — it is exactly the single first-observed failure); in
particular the run never returns normally after a task failed; moreover
once the continue flag is down it stays down and the workers perform at
most `tryGetCount` further pulls (one per worker already past its flag
check, so no worker that subsequently checks the flag begins a new
task), and an already-started task always finishes its handling,
appending itself to the execution history. -/
theorem c1_fail_fast (p : Parallel) (ts : List Triple)
    (hb : buildQueueOf p = Except.ok ts)
    (hroe : p.run_over_exceptions = false)
    (hshape : ¬(p.funcs.length < p.args_list.length ∨ p.funcs.length < p.kwargs_list.length)) :
    ∀ s, Reach p (initState p ts) s →
      (∀ r j, s.main = .finished r j → s.produced ≠ [] →
        ∃ f, r = .taskFailure f ∧ IsBodyFailure ts f ∧
          s.observed.getLast? = some f ∧ s.observed.length ≤ 2 ∧
          (j = false → s.observed = [f])) ∧
      (∀ j, s.main = .finished .normal j → s.produced = []) ∧
      (s.keep_running = false →
        ∀ s2, Reach p s s2 → s2.keep_running = false ∧
          s2.pulls + tryGetCount s2.workers ≤ s.pulls + tryGetCount s.workers) ∧
      (∀ i t, s.workers.get? i = some (.exec t) →
        ∃ s2, step p s (.worker i) = some s2 ∧ s2.executed = s.executed ++ [t.tid]) := by
  intro s hr
  obtain ⟨hi, ho, hn⟩ := reach_all hr
  refine ⟨?_, ?_, ?_, ?_⟩
  · intro r j hm hprod
    rcases reach_finished_outcomes hr r j hm with hrn | hrs | ⟨f, hrf⟩
    · subst hrn
      exact absurd (hn.hnm j hm).2.2 hprod
    · subst hrs
      exact absurd hm ((reach_shape_good hshape hr).2 j)
    · subst hrf
      refine ⟨f, rfl, hi.hres f j hm, ?_, ?_, ?_⟩
      · cases j with
        | true =>
          rcases ho.hdone_task_j f hm with h | ⟨f1, h⟩ <;> rw [h] <;> rfl
        | false =>
          rw [ho.hdone_task_nj f hm]
          rfl
      · cases j with
        | true =>
          rcases ho.hdone_task_j f hm with h | ⟨f1, h⟩ <;> rw [h] <;> simp
        | false =>
          rw [ho.hdone_task_nj f hm]
          simp
      · intro hjf
        rw [hjf] at hm
        exact ho.hdone_task_nj f hm
  · intro j hm
    exact (hn.hnm j hm).2.2
  · intro hkf s2 hr2
    exact reach_flag_false hroe hr2 hkf
  · intro i t hw
    cases hc : callOutcome t with
    | ok u =>
      cases u
      exact ⟨_, workerStep_exec_ok hw hc, rfl⟩
    | error f =>
      exact ⟨_, workerStep_exec_err hw hc, rfl⟩

theorem c1_fail_fast_witness :
    buildQueueOf pC1 = Except.ok tsC1 ∧
    pC1.run_over_exceptions = false ∧
    ¬(pC1.funcs.length < pC1.args_list.length ∨
      pC1.funcs.length < pC1.kwargs_list.length) ∧
    (∀ s, Reach pC1 (initState pC1 tsC1) s →
      (∀ r j, s.main = .finished r j → s.produced ≠ [] →
        ∃ f, r = .taskFailure f ∧ IsBodyFailure tsC1 f ∧
          s.observed.getLast? = some f ∧ s.observed.length ≤ 2 ∧
          (j = false → s.observed = [f])) ∧
      (∀ j, s.main = .finished .normal j → s.produced = []) ∧
      (s.keep_running = false →
        ∀ s2, Reach pC1 s s2 → s2.keep_running = false ∧
          s2.pulls + tryGetCount s2.workers ≤ s.pulls + tryGetCount s.workers) ∧
      (∀ i t, s.workers.get? i = some (.exec t) →
        ∃ s2, step pC1 s (.worker i) = some s2 ∧ s2.executed = s.executed ++ [t.tid])) :=
  ⟨rfl, rfl, by decide, c1_fail_fast pC1 tsC1 rfl rfl (by decide)⟩

end Qalib
